import Mathlib

/-!
# Maze-Solver: a shallow embedding of `maze_dsa.cpp`

The C++ program keeps a maze as a `std::vector<std::string>` together with
`int rows, cols` and two `std::pair<int,int>` positions, and searches it with a
recursive depth-first and an iterative breadth-first traversal.

Modelling conventions
* `int` is `Int`.  All coordinates the program computes are of the form
  `r ± 1` for an in-bounds `r`, or loop counters below `rows`/`cols`, so 32-bit
  wrap-around never occurs for grids with fewer than `2^31` rows and columns.
* `std::vector<T>` and `std::string` are `List`s; `char` is `Char`.
* Indexing a vector outside its size is undefined behaviour in C++; the model
  makes it the explicit fault `Fault.outOfRange`.  `std::string::operator[]`
  at `pos == size()` is defined (it yields the terminating `'\0'`), which
  `strAt` reproduces.
* The recursion of `dfsUtil` and the two `while`/`for` loops of `solveBFS` take
  a fuel argument; running out of fuel is the fault `Fault.outOfFuel`.  For
  `dfsUtil` the fuel is exactly the remaining nesting depth.
-/

namespace MazeSolver

/-- The type `using Position = std::pair<int,int>`. -/
abbrev Position := Int × Int

/-- Ways in which a run of the model can fail to produce a value. -/
inductive Fault where
  | outOfRange
  | outOfFuel
  deriving DecidableEq, Repr

/-- Reading `v[i]` on a `std::vector<T>` with an `int` index. -/
def vecAt {α : Type} (v : List α) (i : Int) : Except Fault α :=
  if 0 ≤ i then
    match v[i.toNat]? with
    | some a => .ok a
    | none => .error .outOfRange
  else .error .outOfRange

/-- Writing `v[i] = a` on a `std::vector<T>` with an `int` index. -/
def vecSet {α : Type} (v : List α) (i : Int) (a : α) : Except Fault (List α) :=
  if 0 ≤ i ∧ i.toNat < v.length then .ok (v.set i.toNat a) else .error .outOfRange

/-- Reading `m[r][c]` on a `std::vector<std::vector<T>>`. -/
def matAt {α : Type} (m : List (List α)) (r c : Int) : Except Fault α :=
  match vecAt m r with
  | .error e => .error e
  | .ok row => vecAt row c

/-- Writing `m[r][c] = a` on a `std::vector<std::vector<T>>`. -/
def matSet {α : Type} (m : List (List α)) (r c : Int) (a : α) :
    Except Fault (List (List α)) :=
  match vecAt m r with
  | .error e => .error e
  | .ok row =>
    match vecSet row c a with
    | .error e => .error e
    | .ok row' => vecSet m r row'

/-- Reading `s[i]` on a `std::string`: position `size()` holds the terminating zero. -/
def strAt (s : List Char) (i : Int) : Except Fault Char :=
  if 0 ≤ i then
    match s[i.toNat]? with
    | some ch => .ok ch
    | none => if i.toNat = s.length then .ok (Char.ofNat 0) else .error .outOfRange
  else .error .outOfRange

/-- Reading `grid[r][c]` on the `std::vector<std::string>` of the maze. -/
def gridAt (grid : List (List Char)) (r c : Int) : Except Fault Char :=
  match vecAt grid r with
  | .error e => .error e
  | .ok row => strAt row c

/-- The `class Maze`: its private members `grid`, `rows`, `cols`, `start`, `end`. -/
structure Maze where
  grid : List (List Char)
  rows : Int
  cols : Int
  start : Position
  end_ : Position
  deriving DecidableEq, Repr

/-- The constructor `Maze() : rows(0), cols(0) {}`; the two pairs are value-initialised. -/
def Maze.new : Maze := ⟨[], 0, 0, (0, 0), (0, 0)⟩

/-- The getter `getStart()`. -/
def Maze.getStart (m : Maze) : Position := m.start

/-- The getter `getEnd()`. -/
def Maze.getEnd (m : Maze) : Position := m.end_

/-- The getter `getRows()`. -/
def Maze.getRows (m : Maze) : Int := m.rows

/-- The getter `getCols()`. -/
def Maze.getCols (m : Maze) : Int := m.cols

/-- The method `Maze::isOpen`: `r>=0 && r<rows && c>=0 && c<cols && grid[r][c] != '#'`. -/
def Maze.isOpen (m : Maze) (r c : Int) : Except Fault Bool :=
  if r ≥ 0 ∧ r < m.rows ∧ c ≥ 0 ∧ c < m.cols then
    match gridAt m.grid r c with
    | .error e => .error e
    | .ok ch => .ok (ch != '#')
  else .ok false

/-- The statement `if (!line.empty() && line.back() == '\r') line.pop_back();`. -/
def stripCR (line : List Char) : List Char :=
  if line.getLast? = some '\r' then line.dropLast else line

/-- The `while (std::getline(in, line))` loop of `Maze::load`; `cur` is the
line read so far.  At end of input a line is delivered only if at least one
character was extracted. -/
def getlines : List Char → List Char → List (List Char)
  | [], cur => if cur = [] then [] else [stripCR cur]
  | ch :: rest, cur =>
    if ch = '\n' then stripCR cur :: getlines rest [] else getlines rest (cur ++ [ch])

/-- Body of the marker scan of `Maze::load` at cell `(i, j)`. -/
def scanCell (grid : List (List Char)) (i j : Int) (se : Position × Position) :
    Except Fault (Position × Position) :=
  match gridAt grid i j with
  | .error e => .error e
  | .ok ch => .ok (if ch = 'S' then (i, j) else se.1, if ch = 'E' then (i, j) else se.2)

/-- Inner loop `for (int j = 0; j < cols; ++j)`, counter `j`, `n` iterations left. -/
def scanRow (grid : List (List Char)) (i : Int) :
    Nat → Int → Position × Position → Except Fault (Position × Position)
  | 0, _, se => .ok se
  | n + 1, j, se =>
    match scanCell grid i j se with
    | .error e => .error e
    | .ok se' => scanRow grid i n (j + 1) se'

/-- Outer loop `for (int i = 0; i < rows; ++i)`, counter `i`, `n` iterations left. -/
def scanRows (grid : List (List Char)) (cols : Int) :
    Nat → Int → Position × Position → Except Fault (Position × Position)
  | 0, _, se => .ok se
  | n + 1, i, se =>
    match scanRow grid i cols.toNat 0 se with
    | .error e => .error e
    | .ok se' => scanRows grid cols n (i + 1) se'

/-- The method `Maze::load` on a file that could be opened, with contents `text`. -/
def Maze.load (m : Maze) (text : List Char) : Except Fault Maze :=
  let grid := getlines text []
  let rows : Int := grid.length
  let cols : Int := match grid with
    | [] => 0
    | row :: _ => row.length
  match scanRows grid cols rows.toNat 0 (m.start, m.end_) with
  | .error e => .error e
  | .ok se => .ok ⟨grid, rows, cols, se.1, se.2⟩

/-- Loop body of `Maze::markPath`. -/
def markStep (mark : Char) (grid : List (List Char)) (p : Position) :
    Except Fault (List (List Char)) :=
  match gridAt grid p.1 p.2 with
  | .error e => .error e
  | .ok ch => if ch = ' ' ∨ ch = '.' then matSet grid p.1 p.2 mark else .ok grid

/-- The loop `for (auto& p : path)` of `Maze::markPath`, on the grid. -/
def markCells (mark : Char) : List Position → List (List Char) → Except Fault (List (List Char))
  | [], grid => .ok grid
  | p :: ps, grid =>
    match markStep mark grid p with
    | .error e => .error e
    | .ok grid' => markCells mark ps grid'

/-- The method `Maze::markPath`. -/
def Maze.markPath (m : Maze) (path : List Position) (mark : Char) : Except Fault Maze :=
  match markCells mark path m.grid with
  | .error e => .error e
  | .ok grid' => .ok ⟨grid', m.rows, m.cols, m.start, m.end_⟩

/-- The offset tables `dr[4] = {-1,1,0,0}`, `dc[4] = {0,0,-1,1}`. -/
def dirs : List (Int × Int) := [(-1, 0), (1, 0), (0, -1), (0, 1)]

/-- Result of a `dfsUtil` call: return value, `visited` and `path` afterwards. -/
abbrev DfsOut := Bool × List (List Bool) × List Position

/-- The loop `for (int i = 0; i < 4; ++i)` of `dfsUtil` over the remaining
offsets; `call` is the recursive invocation of `dfsUtil`. -/
def dfsLoop (maze : Maze)
    (call : Position → List (List Bool) → List Position → Except Fault DfsOut)
    (cur : Position) :
    List (Int × Int) → List (List Bool) → List Position → Except Fault DfsOut
  | [], visited, path => .ok (false, visited, path)
  | d :: ds, visited, path =>
    let nr := cur.1 + d.1
    let nc := cur.2 + d.2
    match maze.isOpen nr nc with
    | .error e => .error e
    | .ok false => dfsLoop maze call cur ds visited path
    | .ok true =>
      match matAt visited nr nc with
      | .error e => .error e
      | .ok true => dfsLoop maze call cur ds visited path
      | .ok false =>
        match call (nr, nc) visited path with
        | .error e => .error e
        | .ok (true, visited', path') => .ok (true, visited', path' ++ [cur])
        | .ok (false, visited', path') => dfsLoop maze call cur ds visited' path'

/-- The function `dfsUtil`; the first argument bounds the nesting depth of the recursion. -/
def dfsUtil (maze : Maze) :
    Nat → Position → Position → List (List Bool) → List Position → Except Fault DfsOut
  | 0, _, _, _, _ => .error .outOfFuel
  | fuel + 1, cur, end_, visited, path =>
    if cur = end_ then .ok (true, visited, path ++ [cur])
    else
      match matSet visited cur.1 cur.2 true with
      | .error e => .error e
      | .ok visited' =>
        dfsLoop maze (fun p v pt => dfsUtil maze fuel p end_ v pt) cur dirs visited' path

/-- The constructor call `std::vector<std::vector<T>>(R, std::vector<T>(C, a))`. -/
def mkMatrix {α : Type} (R C : Int) (a : α) : List (List α) :=
  List.replicate R.toNat (List.replicate C.toNat a)

/-- The function `solveDFS` with nesting depth at most `fuel`. -/
def solveDFSFuel (fuel : Nat) (maze : Maze) : Except Fault (List Position) :=
  let S := maze.getStart
  let E := maze.getEnd
  let R := maze.getRows
  let C := maze.getCols
  let visited := mkMatrix R C false
  match dfsUtil maze fuel S E visited [] with
  | .error e => .error e
  | .ok (true, _, path) => .ok path.reverse
  | .ok (false, _, path) => .ok path

/-- The function `solveDFS`: the nesting depth is allowed to reach `rows * cols + 1`. -/
def solveDFS (maze : Maze) : Except Fault (List Position) :=
  solveDFSFuel (maze.rows.toNat * maze.cols.toNat + 1) maze

/-- The locals `visited`, `parent`, `q` of `solveBFS`. -/
structure BfsState where
  visited : List (List Bool)
  parent : List (List Position)
  q : List Position
  deriving DecidableEq, Repr

/-- The loop `for (int i = 0; i < 4; ++i)` of `solveBFS` for the dequeued cell
`(r, c)`, over the remaining offsets. -/
def bfsExpand (maze : Maze) (r c : Int) : List (Int × Int) → BfsState → Except Fault BfsState
  | [], st => .ok st
  | d :: ds, st =>
    let nr := r + d.1
    let nc := c + d.2
    match maze.isOpen nr nc with
    | .error e => .error e
    | .ok false => bfsExpand maze r c ds st
    | .ok true =>
      match matAt st.visited nr nc with
      | .error e => .error e
      | .ok true => bfsExpand maze r c ds st
      | .ok false =>
        match matSet st.visited nr nc true with
        | .error e => .error e
        | .ok visited' =>
          match matSet st.parent nr nc (r, c) with
          | .error e => .error e
          | .ok parent' => bfsExpand maze r c ds ⟨visited', parent', st.q ++ [(nr, nc)]⟩

/-- The loop `while (!q.empty())` of `solveBFS`; `fuel` bounds the iterations. -/
def bfsLoop (maze : Maze) : Nat → BfsState → Except Fault BfsState
  | 0, _ => .error .outOfFuel
  | fuel + 1, st =>
    match st.q with
    | [] => .ok st
    | p :: q' =>
      if p = maze.getEnd then .ok ⟨st.visited, st.parent, q'⟩
      else
        match bfsExpand maze p.1 p.2 dirs ⟨st.visited, st.parent, q'⟩ with
        | .error e => .error e
        | .ok st' => bfsLoop maze fuel st'

/-- The loop `for (Position at = E; at != S; at = parent[at.first][at.second])`
of `solveBFS`; `fuel` bounds the iterations. -/
def reconstruct (S : Position) (parent : List (List Position)) :
    Nat → Position → List Position → Except Fault (List Position)
  | 0, _, _ => .error .outOfFuel
  | fuel + 1, cur, path =>
    if cur ≠ S then
      match matAt parent cur.1 cur.2 with
      | .error e => .error e
      | .ok nxt => reconstruct S parent fuel nxt (path ++ [cur])
    else .ok path

/-- The function `solveBFS` with both loops bounded by `fuel` iterations. -/
def solveBFSFuel (fuel : Nat) (maze : Maze) : Except Fault (List Position) :=
  let S := maze.getStart
  let E := maze.getEnd
  let R := maze.getRows
  let C := maze.getCols
  let visited := mkMatrix R C false
  let parent := mkMatrix R C ((-1, -1) : Position)
  match matSet visited S.1 S.2 true with
  | .error e => .error e
  | .ok visited =>
    match bfsLoop maze fuel ⟨visited, parent, [S]⟩ with
    | .error e => .error e
    | .ok st =>
      match matAt st.visited E.1 E.2 with
      | .error e => .error e
      | .ok false => .ok []
      | .ok true =>
        match reconstruct S st.parent fuel E [] with
        | .error e => .error e
        | .ok path => .ok (path ++ [S]).reverse

/-- The function `solveBFS`: each loop is allowed `rows * cols + 1` iterations. -/
def solveBFS (maze : Maze) : Except Fault (List Position) :=
  solveBFSFuel (maze.rows.toNat * maze.cols.toNat + 1) maze

/-- Equality of outcomes is decidable, so that concrete runs can be evaluated. -/
instance instDecidableEqExcept {ε α : Type} [DecidableEq ε] [DecidableEq α] :
    DecidableEq (Except ε α)
  | .ok a, .ok b =>
    if h : a = b then isTrue (by rw [h]) else isFalse (fun h' => h (Except.ok.inj h'))
  | .error a, .error b =>
    if h : a = b then isTrue (by rw [h]) else isFalse (fun h' => h (Except.error.inj h'))
  | .ok _, .error _ => isFalse (fun h => by cases h)
  | .error _, .ok _ => isFalse (fun h => by cases h)

/-! ## Specification vocabulary -/

/-- The coordinates `p` lie inside the `rows × cols` rectangle. -/
def Maze.InBounds (m : Maze) (p : Position) : Prop :=
  0 ≤ p.1 ∧ p.1 < m.rows ∧ 0 ≤ p.2 ∧ p.2 < m.cols

/-- The cell `p` is open: `isOpen` returns `true` on it. -/
def Maze.Open (m : Maze) (p : Position) : Prop :=
  m.isOpen p.1 p.2 = .ok true

/-- A rectangular maze with at least one row and one column, whose `rows` and
`cols` members agree with the grid (as `Maze::load` leaves them). -/
structure Maze.Rect (m : Maze) : Prop where
  rows_eq : m.rows = m.grid.length
  cols_eq : ∀ row ∈ m.grid, (row.length : Int) = m.cols
  rows_pos : 0 < m.rows
  cols_pos : 0 < m.cols

/-- The cell `q` is one step up, down, left or right of `p`. -/
def Adj4 (p q : Position) : Prop :=
  q = (p.1 - 1, p.2) ∨ q = (p.1 + 1, p.2) ∨ q = (p.1, p.2 - 1) ∨ q = (p.1, p.2 + 1)

instance instDecidableAdj4 (p q : Position) : Decidable (Adj4 p q) :=
  inferInstanceAs (Decidable
    (q = (p.1 - 1, p.2) ∨ q = (p.1 + 1, p.2) ∨ q = (p.1, p.2 - 1) ∨ q = (p.1, p.2 + 1)))

/-- A sequence of 4-directionally adjacent open cells leading from `a` to `b`. -/
def Maze.Walk (m : Maze) (a b : Position) (l : List Position) : Prop :=
  l.head? = some a ∧ l.getLast? = some b ∧ (∀ p ∈ l, m.Open p) ∧ l.Chain' Adj4

/-- The cell `p` is marked in the `visited` matrix `V`. -/
def Vis (V : List (List Bool)) (p : Position) : Prop :=
  matAt V p.1 p.2 = .ok true

/-- The matrix `M` has exactly the cells of the `rows × cols` rectangle. -/
def Shape {α : Type} (m : Maze) (M : List (List α)) : Prop :=
  ∀ p : Position, (∃ x, matAt M p.1 p.2 = .ok x) ↔ m.InBounds p

/-- All cells of the `rows × cols` rectangle. -/
def cells (m : Maze) : Finset Position :=
  Finset.Ico 0 m.rows ×ˢ Finset.Ico 0 m.cols

/-- The in-bounds cells not yet marked in `V`. -/
def unvisited (m : Maze) (V : List (List Bool)) : Finset Position :=
  (cells m).filter (fun p => matAt V p.1 p.2 = .ok false)

/-- The open cells not yet marked in `V`. -/
def openUnvisited (m : Maze) (V : List (List Bool)) : Finset Position :=
  (cells m).filter (fun p => m.isOpen p.1 p.2 = .ok true ∧ matAt V p.1 p.2 = .ok false)

/-- The level assignment `d` with the level of `w` set to `k`. -/
def relevel (d : Position → Nat) (w : Position) (k : Nat) : Position → Nat :=
  fun p => if p = w then k else d p

/-- Invariant of the `while` loop of `solveBFS`.  `L` is the queue including
the cell currently being expanded, `d` the BFS level of each visited cell and
`N` a bound on the iterations still to come. -/
structure BfsInv (m : Maze) (N : Nat) (V : List (List Bool)) (P : List (List Position))
    (L : List Position) (d : Position → Nat) : Prop where
  shapeV : Shape m V
  shapeP : Shape m P
  startVis : Vis V m.start
  startD : d m.start = 0
  par : ∀ v, Vis V v → v ≠ m.start →
    ∃ u, matAt P v.1 v.2 = .ok u ∧ Vis V u ∧ Adj4 u v ∧ m.Open v ∧ d v = d u + 1
  qvis : ∀ x ∈ L, Vis V x
  sorted : L.Pairwise (fun a b => d a ≤ d b)
  bound : ∀ v, Vis V v → ∀ x ∈ L, d v ≤ d x + 1
  proc : ∀ u, Vis V u → u ∉ L → ∀ w, Adj4 u w → m.Open w → Vis V w ∧ d w ≤ d u + 1
  budget : L.length + (unvisited m V).card ≤ N
  dsize : ∀ v, Vis V v → d v + 1 + (unvisited m V).card ≤ m.rows.toNat * m.cols.toNat

/-- Postcondition of a call `dfsUtil(maze, cur, E, visited, path)` entered with
the matrix `V` and the path `path`, in terms of its outcome `out`. -/
structure DfsPost (m : Maze) (E cur : Position) (V : List (List Bool)) (path : List Position)
    (out : DfsOut) : Prop where
  shape : Shape m out.2.1
  mono : ∀ p, Vis V p → Vis out.2.1 p
  endFree : ¬ Vis out.2.1 E
  found : out.1 = true → ∃ route : List Position, out.2.2 = path ++ route.reverse ∧
    route.head? = some cur ∧ route.getLast? = some E ∧ route.Chain' Adj4 ∧
    (∀ p ∈ route, m.Open p ∧ ¬ Vis V p) ∧ route.Nodup
  notFound : out.1 = false → out.2.2 = path ∧ Vis out.2.1 cur ∧
    ∀ x, Vis out.2.1 x → ¬ Vis V x → ∀ w, Adj4 x w → m.Open w → Vis out.2.1 w

/-- The function `call` behaves like `dfsUtil` on every open unvisited cell, as
long as at most `n` open cells are unvisited. -/
def DfsCallOK (m : Maze) (E : Position) (n : Nat)
    (call : Position → List (List Bool) → List Position → Except Fault DfsOut) : Prop :=
  ∀ cur V path, Shape m V → m.Open cur → ¬ Vis V cur → ¬ Vis V E →
    (openUnvisited m V).card ≤ n → ∃ out, call cur V path = .ok out ∧ DfsPost m E cur V path out

/-- Postcondition of the neighbour loop of `dfsUtil` for the cell `cur`, over
the offsets `ds`, entered with the matrix `V` and the path `path`. -/
structure DfsLoopPost (m : Maze) (E cur : Position) (ds : List (Int × Int))
    (V : List (List Bool)) (path : List Position) (out : DfsOut) : Prop where
  shape : Shape m out.2.1
  mono : ∀ p, Vis V p → Vis out.2.1 p
  endFree : ¬ Vis out.2.1 E
  found : out.1 = true → ∃ route : List Position, out.2.2 = path ++ (cur :: route).reverse ∧
    (cur :: route).getLast? = some E ∧ (cur :: route).Chain' Adj4 ∧
    (∀ p ∈ route, m.Open p ∧ ¬ Vis V p) ∧ route.Nodup
  notFound : out.1 = false → out.2.2 = path ∧
    (∀ dd ∈ ds, m.Open (cur.1 + dd.1, cur.2 + dd.2) → Vis out.2.1 (cur.1 + dd.1, cur.2 + dd.2)) ∧
    ∀ x, Vis out.2.1 x → ¬ Vis V x → ∀ w, Adj4 x w → m.Open w → Vis out.2.1 w

instance instDecidableInBounds (m : Maze) (p : Position) : Decidable (m.InBounds p) :=
  inferInstanceAs (Decidable (0 ≤ p.1 ∧ p.1 < m.rows ∧ 0 ≤ p.2 ∧ p.2 < m.cols))

instance instDecidableOpen (m : Maze) (p : Position) : Decidable (m.Open p) :=
  inferInstanceAs (Decidable (m.isOpen p.1 p.2 = .ok true))

/-! ## Sample mazes -/

/-- The maze `S.#` / `.#.` / `..E`. -/
def maze3 : Maze :=
  ⟨["S.#".toList, ".#.".toList, "..E".toList], 3, 3, (0, 0), (2, 2)⟩

/-- The one-row maze `S#E`. -/
def mazeWall : Maze := ⟨["S#E".toList], 1, 3, (0, 0), (0, 2)⟩

/-- The maze `..` / `SE`. -/
def mazeDetour : Maze := ⟨["..".toList, "SE".toList], 2, 2, (1, 0), (1, 1)⟩

/-- The maze `S.` / `#.` with start and end both at the `S`. -/
def mazeSame : Maze := ⟨["S.".toList, "#.".toList], 2, 2, (0, 0), (0, 0)⟩

/-- The one-row maze `S. E`. -/
def mazeRow : Maze := ⟨["S. E".toList], 1, 4, (0, 0), (0, 3)⟩

/-! ## Output, the search without early exit, loop states -/

/-- The loop `for (auto& line : grid) out << line << "\n";` shared by `Maze::save`
and `Maze::print`: the characters written. -/
def writeLines : List (List Char) → List Char
  | [] => []
  | line :: rest => line ++ '\n' :: writeLines rest

/-- The method `Maze::save` on a file that could be opened: the text written. -/
def Maze.save (m : Maze) : List Char := writeLines m.grid

/-- The method `Maze::print`: the text written to the stream. -/
def Maze.print (m : Maze) : List Char := writeLines m.grid

/-- The lines of a text as `std::getline` delivers them, before any trailing
carriage return is removed; `cur` is the line read so far. -/
def rawLines : List Char → List Char → List (List Char)
  | [], cur => if cur = [] then [] else [cur]
  | ch :: rest, cur =>
    if ch = '\n' then cur :: rawLines rest [] else rawLines rest (cur ++ [ch])

/-- The `while` loop of `solveBFS` with the statement
`if (std::make_pair(r,c) == E) break;` left out: it runs until the queue is
empty. -/
def bfsLoopNoBreak (maze : Maze) : Nat → BfsState → Except Fault BfsState
  | 0, _ => .error .outOfFuel
  | fuel + 1, st =>
    match st.q with
    | [] => .ok st
    | p :: q' =>
      match bfsExpand maze p.1 p.2 dirs ⟨st.visited, st.parent, q'⟩ with
      | .error e => .error e
      | .ok st' => bfsLoopNoBreak maze fuel st'

/-- The variant of `solveBFS` whose search loop has no early exit, with both
loops bounded by `fuel` iterations. -/
def solveBFSNoBreakFuel (fuel : Nat) (maze : Maze) : Except Fault (List Position) :=
  let S := maze.getStart
  let E := maze.getEnd
  let R := maze.getRows
  let C := maze.getCols
  let visited := mkMatrix R C false
  let parent := mkMatrix R C ((-1, -1) : Position)
  match matSet visited S.1 S.2 true with
  | .error e => .error e
  | .ok visited =>
    match bfsLoopNoBreak maze fuel ⟨visited, parent, [S]⟩ with
    | .error e => .error e
    | .ok st =>
      match matAt st.visited E.1 E.2 with
      | .error e => .error e
      | .ok false => .ok []
      | .ok true =>
        match reconstruct S st.parent fuel E [] with
        | .error e => .error e
        | .ok path => .ok (path ++ [S]).reverse

/-- The variant of `solveBFS` whose search loop has no early exit. -/
def solveBFSNoBreak (maze : Maze) : Except Fault (List Position) :=
  solveBFSNoBreakFuel (maze.rows.toNat * maze.cols.toNat + 1) maze

/-- The states in which `solveBFS` can stand at the head of its `while` loop:
the state after the initial `visited[S] = true; q.push(S)`, and the state after
one more full iteration (dequeue a cell other than the end, expand it). -/
inductive BfsReach (m : Maze) : BfsState → Prop where
  | init {V : List (List Bool)} :
      matSet (mkMatrix m.getRows m.getCols false) m.getStart.1 m.getStart.2 true = .ok V →
      BfsReach m ⟨V, mkMatrix m.getRows m.getCols ((-1, -1) : Position), [m.getStart]⟩
  | step {st st' : BfsState} {p : Position} {q' : List Position} :
      BfsReach m st → st.q = p :: q' → p ≠ m.getEnd →
      bfsExpand m p.1 p.2 dirs ⟨st.visited, st.parent, q'⟩ = .ok st' →
      BfsReach m st'

/-- The open cells of the maze. -/
def openCells (m : Maze) : Finset Position :=
  (cells m).filter (fun p => m.isOpen p.1 p.2 = .ok true)

/-- The maze loaded from the text `#E`: there is no `S`, the start stays `(0,0)`. -/
def mazeNoStart : Maze := ⟨["#E".toList], 1, 2, (0, 0), (0, 1)⟩

/-- The maze loaded from the empty text. -/
def mazeEmpty : Maze := ⟨[], 0, 0, (0, 0), (0, 0)⟩

/-- The maze loaded from the text consisting of one empty line. -/
def mazeNoCols : Maze := ⟨[[]], 1, 0, (0, 0), (0, 0)⟩

/-- The maze loaded from the text `S`: there is no `E`, the end stays `(0,0)`. -/
def mazeOnlyS : Maze := ⟨["S".toList], 1, 1, (0, 0), (0, 0)⟩

/-- A grid with rows `S..` / `.` / `..E` of unequal length; `cols` is the
length of the first row. -/
def mazeRagged : Maze := ⟨["S..".toList, ".".toList, "..E".toList], 3, 3, (0, 0), (2, 2)⟩

/-- The one-row maze `S.#` whose end position is the wall cell. -/
def mazeEndWall : Maze := ⟨["S.#".toList], 1, 3, (0, 0), (0, 2)⟩

instance instDecidableVis (V : List (List Bool)) (p : Position) : Decidable (Vis V p) :=
  inferInstanceAs (Decidable (matAt V p.1 p.2 = .ok true))

/-- The state of `solveBFS` on `maze3` when the `while` loop is entered. -/
def maze3Stage0 : BfsState :=
  ⟨[[true, false, false], [false, false, false], [false, false, false]],
    mkMatrix 3 3 ((-1, -1) : Position), [(0, 0)]⟩

/-- The state of `solveBFS` on `maze3` after the first iteration of the `while`
loop: the start was dequeued and its two open neighbours were discovered. -/
def maze3Stage1 : BfsState :=
  ⟨[[true, true, false], [true, false, false], [false, false, false]],
    [[(-1, -1), (0, 0), (-1, -1)], [(0, 0), (-1, -1), (-1, -1)],
      [(-1, -1), (-1, -1), (-1, -1)]],
    [(1, 0), (0, 1)]⟩

/-- The state of `solveBFS` on `maze3` when the `while` loop is left. -/
def maze3Final : BfsState :=
  ⟨[[true, true, false], [true, false, false], [true, true, true]],
    [[(-1, -1), (0, 0), (-1, -1)], [(0, 0), (-1, -1), (-1, -1)], [(1, 0), (2, 0), (2, 1)]],
    []⟩

/-! ## Indexing lemmas -/

theorem vecAt_eq_ok {α : Type} {v : List α} {i : Int} {a : α} :
    vecAt v i = .ok a ↔ 0 ≤ i ∧ v[i.toNat]? = some a := by
  unfold vecAt
  by_cases h : 0 ≤ i
  · simp only [h, if_true, true_and]
    cases hv : v[i.toNat]? with
    | none => simp
    | some b => simp
  · simp [h]

theorem vecSet_eq_ok {α : Type} {v v' : List α} {i : Int} {a : α} :
    vecSet v i a = .ok v' ↔ 0 ≤ i ∧ i.toNat < v.length ∧ v' = v.set i.toNat a := by
  unfold vecSet
  by_cases h : 0 ≤ i ∧ i.toNat < v.length
  · simp only [h, and_self, if_true, true_and]
    constructor
    · intro h'; exact (Except.ok.inj h').symm
    · intro h'; rw [h']
  · simp only [h, if_false]
    constructor
    · intro h'; cases h'
    · intro h'; exact absurd ⟨h'.1, h'.2.1⟩ h

theorem matAt_eq_ok {α : Type} {m : List (List α)} {r c : Int} {a : α} :
    matAt m r c = .ok a ↔
      0 ≤ r ∧ 0 ≤ c ∧ ∃ row, m[r.toNat]? = some row ∧ row[c.toNat]? = some a := by
  unfold matAt
  cases hv : vecAt m r with
  | error e =>
    simp only [false_iff, reduceCtorEq]
    rintro ⟨h0, -, row, hrow, -⟩
    have := vecAt_eq_ok.mpr ⟨h0, hrow⟩
    rw [hv] at this; cases this
  | ok row =>
    obtain ⟨h0, hrow⟩ := vecAt_eq_ok.mp hv
    simp only [vecAt_eq_ok, h0, true_and, hrow, Option.some.injEq, exists_eq_left']

theorem matSet_eq_ok {α : Type} {m m' : List (List α)} {r c : Int} {a : α} :
    matSet m r c a = .ok m' ↔
      0 ≤ r ∧ 0 ≤ c ∧ ∃ row, m[r.toNat]? = some row ∧ c.toNat < row.length ∧
        m' = m.set r.toNat (row.set c.toNat a) := by
  unfold matSet
  cases hv : vecAt m r with
  | error e =>
    simp only [false_iff, reduceCtorEq]
    rintro ⟨h0, -, row, hrow, -⟩
    have := vecAt_eq_ok.mpr ⟨h0, hrow⟩
    rw [hv] at this; cases this
  | ok row =>
    obtain ⟨h0, hrow⟩ := vecAt_eq_ok.mp hv
    have hlt : r.toNat < m.length := by
      rcases List.getElem?_eq_some.mp hrow with ⟨h, -⟩; exact h
    cases hs : vecSet row c a with
    | error e =>
      simp only [hs, false_iff, reduceCtorEq]
      rintro ⟨-, hc, row', hrow', hlen, -⟩
      rw [hrow] at hrow'; cases hrow'
      have := (@vecSet_eq_ok α row (row.set c.toNat a) c a).mpr ⟨hc, hlen, rfl⟩
      rw [hs] at this; cases this
    | ok row' =>
      obtain ⟨hc, hlen, hrow'⟩ := vecSet_eq_ok.mp hs
      simp only [hs]
      subst hrow'
      simp only [vecSet_eq_ok, h0, hc, hlt, true_and, hrow, Option.some.injEq]
      constructor
      · intro h; exact ⟨row, rfl, hlen, h⟩
      · rintro ⟨row', rfl, -, h⟩; exact h

theorem matAt_matSet_same {α : Type} {m m' : List (List α)} {r c : Int} {a : α}
    (h : matSet m r c a = .ok m') : matAt m' r c = .ok a := by
  obtain ⟨h0, hc, row, hrow, hlen, rfl⟩ := matSet_eq_ok.mp h
  have hlt : r.toNat < m.length := by
    rcases List.getElem?_eq_some.mp hrow with ⟨h, -⟩; exact h
  refine matAt_eq_ok.mpr ⟨h0, hc, row.set c.toNat a, ?_, ?_⟩
  · exact List.getElem?_set_self hlt
  · exact List.getElem?_set_self hlen

theorem matAt_matSet_other {α : Type} {m m' : List (List α)} {r c r' c' : Int} {a : α}
    (h : matSet m r c a = .ok m') (hne : (r', c') ≠ (r, c)) :
    matAt m' r' c' = matAt m r' c' := by
  obtain ⟨h0, hc, row, hrow, hlen, rfl⟩ := matSet_eq_ok.mp h
  have hlt : r.toNat < m.length := by
    rcases List.getElem?_eq_some.mp hrow with ⟨h, -⟩; exact h
  unfold matAt vecAt
  by_cases hr0 : 0 ≤ r'
  · simp only [hr0, if_true]
    by_cases hrr : r' = r
    · subst hrr
      have hcc : c' ≠ r' * 0 + c := by
        intro hcc; apply hne; simp [hcc]
      simp only [mul_zero, zero_add] at hcc
      rw [List.getElem?_set_self hlt, hrow]
      simp only
      by_cases hc0 : 0 ≤ c'
      · simp only [hc0, if_true]
        have : c.toNat ≠ c'.toNat := by
          intro hcn; apply hcc
          have h1 := Int.toNat_of_nonneg hc
          have h2 := Int.toNat_of_nonneg hc0
          omega
        rw [List.getElem?_set_ne this]
      · simp [hc0]
    · have : r.toNat ≠ r'.toNat := by
        intro hcn; apply hrr
        have h1 := Int.toNat_of_nonneg h0
        have h2 := Int.toNat_of_nonneg hr0
        omega
      rw [List.getElem?_set_ne this]
  · simp [hr0]

theorem matSet_of_matAt {α : Type} {m : List (List α)} {r c : Int} {x : α} (a : α)
    (h : matAt m r c = .ok x) : ∃ m', matSet m r c a = .ok m' := by
  obtain ⟨h0, hc, row, hrow, hx⟩ := matAt_eq_ok.mp h
  have hlen : c.toNat < row.length := by
    rcases List.getElem?_eq_some.mp hx with ⟨h, -⟩; exact h
  exact ⟨_, matSet_eq_ok.mpr ⟨h0, hc, row, hrow, hlen, rfl⟩⟩

theorem matSet_map_length {α : Type} {m m' : List (List α)} {r c : Int} {a : α}
    (h : matSet m r c a = .ok m') : m'.map List.length = m.map List.length := by
  obtain ⟨h0, hc, row, hrow, hlen, rfl⟩ := matSet_eq_ok.mp h
  apply List.ext_getElem?
  intro n
  simp only [List.getElem?_map]
  by_cases hn : r.toNat = n
  · subst hn
    have hlt : r.toNat < m.length := by
      rcases List.getElem?_eq_some.mp hrow with ⟨h, -⟩; exact h
    rw [List.getElem?_set_self hlt, hrow]
    simp
  · rw [List.getElem?_set_ne hn]

theorem matSet_same_value {α : Type} {m : List (List α)} {r c : Int} {a : α}
    (h : matAt m r c = .ok a) : matSet m r c a = .ok m := by
  obtain ⟨h0, hc, row, hrow, hx⟩ := matAt_eq_ok.mp h
  have hlen : c.toNat < row.length := by
    rcases List.getElem?_eq_some.mp hx with ⟨h, -⟩; exact h
  refine matSet_eq_ok.mpr ⟨h0, hc, row, hrow, hlen, ?_⟩
  have h1 : row.set c.toNat a = row := by
    apply List.ext_getElem?
    intro n
    by_cases hn : c.toNat = n
    · subst hn; rw [List.getElem?_set_self hlen, hx]
    · rw [List.getElem?_set_ne hn]
  rw [h1]
  apply List.ext_getElem?
  intro n
  by_cases hn : r.toNat = n
  · subst hn
    have hlt : r.toNat < m.length := by
      rcases List.getElem?_eq_some.mp hrow with ⟨h, -⟩; exact h
    rw [List.getElem?_set_self hlt, hrow]
  · rw [List.getElem?_set_ne hn]

theorem matAt_mkMatrix {α : Type} (R C : Int) (a : α) (r c : Int) :
    matAt (mkMatrix R C a) r c =
      if 0 ≤ r ∧ r < R ∧ 0 ≤ c ∧ c < C then .ok a else .error .outOfRange := by
  unfold matAt vecAt mkMatrix
  by_cases hr0 : 0 ≤ r
  · by_cases hr : r < R
    · have h1 : r.toNat < R.toNat := by omega
      simp only [hr0, if_true, List.getElem?_replicate, h1, hr, true_and]
      by_cases hc0 : 0 ≤ c
      · by_cases hc : c < C
        · have h2 : c.toNat < C.toNat := by omega
          simp [hc0, hc, h2]
        · have h2 : ¬ c.toNat < C.toNat := by omega
          simp [hc0, hc, h2]
      · simp [hc0]
    · have h1 : ¬ r.toNat < R.toNat := by omega
      simp [hr0, hr, h1, List.getElem?_replicate]
  · simp [hr0]

/-! ## `markPath` -/

theorem gridAt_of_matAt {g : List (List Char)} {r c : Int} {ch : Char}
    (h : matAt g r c = .ok ch) : gridAt g r c = .ok ch := by
  obtain ⟨h0, hc, row, hrow, hx⟩ := matAt_eq_ok.mp h
  unfold gridAt
  rw [vecAt_eq_ok.mpr ⟨h0, hrow⟩]
  simp only [strAt, hc, if_true, hx]

theorem matAt_of_gridAt {g : List (List Char)} {r c : Int} {ch : Char}
    (h : gridAt g r c = .ok ch) (hne : ch ≠ Char.ofNat 0) : matAt g r c = .ok ch := by
  unfold gridAt at h
  unfold matAt
  cases hv : vecAt g r with
  | error e => rw [hv] at h; cases h
  | ok row =>
    rw [hv] at h
    simp only at h ⊢
    unfold strAt at h
    by_cases hc : 0 ≤ c
    · simp only [hc, if_true] at h
      cases hx : row[c.toNat]? with
      | some x =>
        rw [hx] at h
        simp only at h
        exact vecAt_eq_ok.mpr ⟨hc, by rw [hx]; exact congrArg some (Except.ok.inj h)⟩
      | none =>
        rw [hx] at h
        simp only at h
        split at h
        · exact absurd (Except.ok.inj h).symm hne
        · cases h
    · simp [hc] at h

theorem markStep_spec {mark : Char} {g g' : List (List Char)} {p : Position}
    (h : markStep mark g p = .ok g') :
    g'.map List.length = g.map List.length ∧
    ∀ r c ch, matAt g r c = .ok ch →
      matAt g' r c = .ok (if (r, c) = p ∧ (ch = ' ' ∨ ch = '.') then mark else ch) := by
  unfold markStep at h
  cases hg : gridAt g p.1 p.2 with
  | error e => rw [hg] at h; cases h
  | ok x =>
    rw [hg] at h
    simp only at h
    by_cases hx : x = ' ' ∨ x = '.'
    · rw [if_pos hx] at h
      refine ⟨matSet_map_length h, ?_⟩
      intro r c ch hch
      by_cases hp : (r, c) = p
      · have hr : r = p.1 := by rw [← hp]
        have hc : c = p.2 := by rw [← hp]
        subst hr hc
        have hx0 : x ≠ Char.ofNat 0 := by
          rcases hx with hx | hx <;> (rw [hx]; decide)
        have := matAt_of_gridAt hg hx0
        rw [this] at hch
        cases hch
        simp only [true_and, hx, if_true]
        exact matAt_matSet_same h
      · rw [matAt_matSet_other h (by simpa using hp), hch]
        simp [hp]
    · rw [if_neg hx] at h
      cases h
      refine ⟨rfl, ?_⟩
      intro r c ch hch
      by_cases hp : (r, c) = p
      · have hr : r = p.1 := by rw [← hp]
        have hc : c = p.2 := by rw [← hp]
        subst hr hc
        rw [gridAt_of_matAt hch] at hg
        cases hg
        simp [hx, hch]
      · simp [hp, hch]

theorem markStep_defined (mark : Char) {g : List (List Char)} {p : Position} {ch : Char}
    (h : matAt g p.1 p.2 = .ok ch) : ∃ g', markStep mark g p = .ok g' := by
  unfold markStep
  rw [gridAt_of_matAt h]
  simp only
  by_cases hx : ch = ' ' ∨ ch = '.'
  · rw [if_pos hx]; exact matSet_of_matAt mark h
  · rw [if_neg hx]; exact ⟨g, rfl⟩

theorem markCells_spec {mark : Char} :
    ∀ (path : List Position) {g g' : List (List Char)}, markCells mark path g = .ok g' →
    g'.map List.length = g.map List.length ∧
    ∀ r c ch, matAt g r c = .ok ch →
      matAt g' r c = .ok (if (r, c) ∈ path ∧ (ch = ' ' ∨ ch = '.') then mark else ch)
  | [], g, g', h => by
    simp only [markCells] at h
    cases h
    exact ⟨rfl, fun r c ch hch => by simp [hch]⟩
  | p :: ps, g, g', h => by
    simp only [markCells] at h
    cases h1 : markStep mark g p with
    | error e => rw [h1] at h; cases h
    | ok g1 =>
      rw [h1] at h
      simp only at h
      obtain ⟨hlen1, hcell1⟩ := markStep_spec h1
      obtain ⟨hlen2, hcell2⟩ := markCells_spec ps h
      refine ⟨hlen2.trans hlen1, ?_⟩
      intro r c ch hch
      rw [hcell2 r c _ (hcell1 r c ch hch)]
      congr 1
      by_cases hp : (r, c) = p ∧ (ch = ' ' ∨ ch = '.')
      · simp [hp]
      · rw [if_neg hp]
        by_cases he : ch = ' ' ∨ ch = '.'
        · have hp' : (r, c) ≠ p := fun hh => hp ⟨hh, he⟩
          simp [he, hp']
        · simp [he]

theorem markCells_defined (mark : Char) :
    ∀ (path : List Position) {g : List (List Char)},
    (∀ p ∈ path, ∃ ch, matAt g p.1 p.2 = .ok ch) → ∃ g', markCells mark path g = .ok g'
  | [], g, _ => ⟨g, rfl⟩
  | p :: ps, g, h => by
    obtain ⟨ch, hch⟩ := h p (List.mem_cons_self _ _)
    obtain ⟨g1, h1⟩ := markStep_defined mark hch
    have h2 : ∀ q ∈ ps, ∃ ch, matAt g1 q.1 q.2 = .ok ch := by
      intro q hq
      obtain ⟨x, hx⟩ := h q (List.mem_cons_of_mem _ hq)
      exact ⟨_, (markStep_spec h1).2 _ _ _ hx⟩
    obtain ⟨g', h'⟩ := markCells_defined mark ps h2
    exact ⟨g', by simp only [markCells, h1, h']⟩

/-- Marking a path whose cells already went through one marking changes nothing. -/
theorem markCells_stable {mark : Char} :
    ∀ (path : List Position) {g : List (List Char)},
    (∀ p ∈ path, ∃ ch, matAt g p.1 p.2 = .ok ch ∧ ((ch = ' ' ∨ ch = '.') → ch = mark)) →
    markCells mark path g = .ok g
  | [], g, _ => rfl
  | p :: ps, g, h => by
    obtain ⟨ch, hch, hst⟩ := h p (List.mem_cons_self _ _)
    have h1 : markStep mark g p = .ok g := by
      unfold markStep
      rw [gridAt_of_matAt hch]
      simp only
      by_cases hx : ch = ' ' ∨ ch = '.'
      · rw [if_pos hx]
        have := hst hx
        subst this
        exact matSet_same_value hch
      · rw [if_neg hx]
    simp only [markCells, h1]
    exact markCells_stable ps (fun q hq => h q (List.mem_cons_of_mem _ hq))

/-! ## Grid facts -/

theorem Adj4.symm {p q : Position} (h : Adj4 p q) : Adj4 q p := by
  unfold Adj4 at *
  obtain ⟨p1, p2⟩ := p
  obtain ⟨q1, q2⟩ := q
  simp only [Prod.mk.injEq] at *
  omega

theorem Adj4.ne {p q : Position} (h : Adj4 p q) : p ≠ q := by
  unfold Adj4 at h
  obtain ⟨p1, p2⟩ := p
  obtain ⟨q1, q2⟩ := q
  simp only [Prod.mk.injEq, ne_eq] at *
  omega

theorem adj4_iff_dirs {p q : Position} :
    Adj4 p q ↔ ∃ d ∈ dirs, q = (p.1 + d.1, p.2 + d.2) := by
  unfold Adj4 dirs
  obtain ⟨p1, p2⟩ := p
  obtain ⟨q1, q2⟩ := q
  simp only [List.mem_cons, List.mem_singleton, List.not_mem_nil, or_false, exists_eq_or_imp,
    exists_eq_left, Prod.mk.injEq]
  omega

theorem isOpen_total {m : Maze} (hR : m.Rect) (r c : Int) : ∃ b, m.isOpen r c = .ok b := by
  unfold Maze.isOpen
  by_cases h : r ≥ 0 ∧ r < m.rows ∧ c ≥ 0 ∧ c < m.cols
  · rw [if_pos h]
    obtain ⟨h1, h2, h3, h4⟩ := h
    have hlt : r.toNat < m.grid.length := by have := hR.rows_eq; omega
    have hrow : m.grid[r.toNat]? = some (m.grid[r.toNat]) := List.getElem?_eq_getElem hlt
    have hlen := hR.cols_eq _ (List.getElem_mem hlt)
    have hclt : c.toNat < (m.grid[r.toNat]).length := by omega
    unfold gridAt
    rw [vecAt_eq_ok.mpr ⟨h1, hrow⟩]
    simp only [strAt, h3, ge_iff_le, if_true, List.getElem?_eq_getElem hclt]
    exact ⟨_, rfl⟩
  · rw [if_neg h]; exact ⟨false, rfl⟩

theorem Maze.Open.inBounds {m : Maze} {p : Position} (h : m.Open p) : m.InBounds p := by
  unfold Maze.Open Maze.isOpen at h
  by_cases hb : p.1 ≥ 0 ∧ p.1 < m.rows ∧ p.2 ≥ 0 ∧ p.2 < m.cols
  · exact hb
  · rw [if_neg hb] at h; cases h

theorem mem_cells {m : Maze} {p : Position} : p ∈ cells m ↔ m.InBounds p := by
  unfold cells Maze.InBounds
  simp only [Finset.mem_product, Finset.mem_Ico]
  tauto

theorem card_cells (m : Maze) : (cells m).card = m.rows.toNat * m.cols.toNat := by
  unfold cells
  simp [Finset.card_product, Int.card_Ico]

/-! ## The `visited` matrix -/

theorem Vis.not_false {V : List (List Bool)} {p : Position} (h : Vis V p) :
    matAt V p.1 p.2 ≠ .ok false := by
  unfold Vis at h; rw [h]; simp

theorem shape_mkMatrix {α : Type} (m : Maze) (a : α) : Shape m (mkMatrix m.rows m.cols a) := by
  intro p
  rw [matAt_mkMatrix]
  unfold Maze.InBounds
  by_cases h : 0 ≤ p.1 ∧ p.1 < m.rows ∧ 0 ≤ p.2 ∧ p.2 < m.cols
  · simp only [h, and_self, if_true, iff_true]; exact ⟨a, rfl⟩
  · simp only [h, if_false, iff_false]; rintro ⟨x, hx⟩; cases hx

theorem shape_matSet {α : Type} {m : Maze} {M M' : List (List α)} {p : Position} {a : α}
    (hS : Shape m M) (h : matSet M p.1 p.2 a = .ok M') : Shape m M' := by
  intro q
  rw [← hS q]
  by_cases hq : q = p
  · subst hq
    constructor
    · rintro -
      obtain ⟨h0, hc, row, hrow, hlen, -⟩ := matSet_eq_ok.mp h
      exact ⟨row[q.2.toNat], matAt_eq_ok.mpr ⟨h0, hc, row, hrow, List.getElem?_eq_getElem hlen⟩⟩
    · rintro -
      exact ⟨a, matAt_matSet_same h⟩
  · have : (q.1, q.2) ≠ (p.1, p.2) := by
      intro hh; apply hq; exact Prod.ext (congrArg Prod.fst hh) (congrArg Prod.snd hh)
    rw [matAt_matSet_other h this]

theorem shape_bool {m : Maze} {V : List (List Bool)} (hS : Shape m V) {p : Position}
    (hp : m.InBounds p) : Vis V p ∨ matAt V p.1 p.2 = .ok false := by
  obtain ⟨x, hx⟩ := (hS p).mpr hp
  cases x
  · exact Or.inr hx
  · exact Or.inl hx

theorem vis_matSet {V V' : List (List Bool)} {w : Position}
    (h : matSet V w.1 w.2 true = .ok V') (p : Position) : Vis V' p ↔ (p = w ∨ Vis V p) := by
  unfold Vis
  by_cases hp : p = w
  · subst hp
    simp [matAt_matSet_same h]
  · have : (p.1, p.2) ≠ (w.1, w.2) := by
      intro hh; apply hp; exact Prod.ext (congrArg Prod.fst hh) (congrArg Prod.snd hh)
    rw [matAt_matSet_other h this]
    simp [hp]

theorem unvisited_matSet_lt {m : Maze} {V V' : List (List Bool)} {w : Position}
    (hw : m.InBounds w) (hf : matAt V w.1 w.2 = .ok false)
    (h : matSet V w.1 w.2 true = .ok V') :
    (unvisited m V').card < (unvisited m V).card := by
  apply Finset.card_lt_card
  rw [Finset.ssubset_iff_of_subset]
  · refine ⟨w, ?_, ?_⟩
    · simp only [unvisited, Finset.mem_filter, mem_cells]
      exact ⟨hw, hf⟩
    · simp only [unvisited, Finset.mem_filter, mem_cells, matAt_matSet_same h, not_and]
      intro _ hh; cases hh
  · intro p
    simp only [unvisited, Finset.mem_filter, mem_cells]
    rintro ⟨hp, hpf⟩
    refine ⟨hp, ?_⟩
    by_cases hpw : p = w
    · subst hpw; exact hf
    · have : (p.1, p.2) ≠ (w.1, w.2) := by
        intro hh; apply hpw; exact Prod.ext (congrArg Prod.fst hh) (congrArg Prod.snd hh)
      rw [← matAt_matSet_other h this]; exact hpf

theorem unvisited_card_le (m : Maze) (V : List (List Bool)) :
    (unvisited m V).card ≤ m.rows.toNat * m.cols.toNat := by
  rw [← card_cells]
  exact Finset.card_le_card (Finset.filter_subset _ _)

/-! ## Breadth-first search: the loop invariant -/

/-- Discovering the unvisited open neighbour `w` of the cell `u` under
expansion preserves the invariant. -/
theorem BfsInv.discover {m : Maze} {N : Nat} {V V' : List (List Bool)}
    {P P' : List (List Position)} {u w : Position} {q : List Position} {d : Position → Nat}
    (inv : BfsInv m N V P (u :: q) d) (hadj : Adj4 u w) (hopen : m.Open w)
    (hf : matAt V w.1 w.2 = .ok false)
    (hV : matSet V w.1 w.2 true = .ok V') (hP : matSet P w.1 w.2 u = .ok P') :
    BfsInv m N V' P' (u :: (q ++ [w])) (relevel d w (d u + 1)) := by
  have hnw : ∀ p, Vis V p → p ≠ w := by
    intro p hp hpw; subst hpw; exact hp.not_false hf
  have hd : ∀ p, Vis V p → (relevel d w (d u + 1)) p = d p := by
    intro p hp; simp only [relevel, if_neg (hnw p hp)]
  have hdw : (relevel d w (d u + 1)) w = d u + 1 := by simp [relevel]
  have hu : Vis V u := inv.qvis u (List.mem_cons_self _ _)
  have hcard := unvisited_matSet_lt hopen.inBounds hf hV
  have hmem : ∀ x, x ∈ u :: (q ++ [w]) ↔ (x ∈ u :: q ∨ x = w) := by
    intro x; simp only [List.mem_cons, List.mem_append, List.mem_singleton]; tauto
  have hvis := vis_matSet hV
  refine ⟨shape_matSet inv.shapeV hV, shape_matSet inv.shapeP hP, ?_, ?_, ?_, ?_, ?_, ?_, ?_,
    ?_, ?_⟩
  · exact (hvis _).mpr (Or.inr inv.startVis)
  · rw [hd _ inv.startVis]; exact inv.startD
  · intro v hv hvs
    rcases (hvis v).mp hv with rfl | hv'
    · refine ⟨u, matAt_matSet_same hP, (hvis _).mpr (Or.inr hu), hadj, hopen, ?_⟩
      rw [hdw, hd u hu]
    · obtain ⟨u0, hp0, hu0, ha0, ho0, hd0⟩ := inv.par v hv' hvs
      refine ⟨u0, ?_, (hvis _).mpr (Or.inr hu0), ha0, ho0, ?_⟩
      · have : (v.1, v.2) ≠ (w.1, w.2) := by
          intro hh; apply hnw v hv'
          exact Prod.ext (congrArg Prod.fst hh) (congrArg Prod.snd hh)
        rw [matAt_matSet_other hP this]; exact hp0
      · rw [hd v hv', hd u0 hu0]; exact hd0
  · intro x hx
    rcases (hmem x).mp hx with hx | rfl
    · exact (hvis _).mpr (Or.inr (inv.qvis x hx))
    · exact (hvis _).mpr (Or.inl rfl)
  · have : u :: (q ++ [w]) = (u :: q) ++ [w] := rfl
    rw [this, List.pairwise_append]
    refine ⟨?_, List.pairwise_singleton _ _, ?_⟩
    · refine List.Pairwise.imp_of_mem ?_ inv.sorted
      intro a b ha hb hab
      rw [hd a (inv.qvis a ha), hd b (inv.qvis b hb)]; exact hab
    · intro a ha b hb
      rw [List.mem_singleton] at hb
      subst hb
      rw [hdw, hd a (inv.qvis a ha)]
      exact inv.bound a (inv.qvis a ha) u (List.mem_cons_self _ _)
  · intro v hv x hx
    have hxle : ∀ x ∈ u :: q, d u ≤ d x := by
      intro x hx
      rcases List.mem_cons.mp hx with rfl | hx
      · exact le_refl _
      · exact List.rel_of_pairwise_cons inv.sorted hx
    rcases (hvis v).mp hv with rfl | hv'
    · rcases (hmem x).mp hx with hx | rfl
      · rw [hdw, hd x (inv.qvis x hx)]
        have := hxle x hx
        omega
      · omega
    · rcases (hmem x).mp hx with hx | rfl
      · rw [hd v hv', hd x (inv.qvis x hx)]; exact inv.bound v hv' x hx
      · rw [hd v hv', hdw]
        have := inv.bound v hv' u (List.mem_cons_self _ _)
        omega
  · intro u0 hu0 hnot x hadj0 hopen0
    have hu0w : u0 ≠ w := by
      intro hh; apply hnot; exact (hmem u0).mpr (Or.inr hh)
    have hu0' : Vis V u0 := by
      rcases (hvis u0).mp hu0 with h | h
      · exact absurd h hu0w
      · exact h
    have hnot' : u0 ∉ u :: q := fun hh => hnot ((hmem u0).mpr (Or.inl hh))
    obtain ⟨hx, hdx⟩ := inv.proc u0 hu0' hnot' x hadj0 hopen0
    refine ⟨(hvis _).mpr (Or.inr hx), ?_⟩
    rw [hd x hx, hd u0 hu0']; exact hdx
  · have := inv.budget
    simp only [List.length_cons, List.length_append, List.length_singleton, List.length_nil] at this ⊢
    omega
  · intro v hv
    rcases (hvis v).mp hv with rfl | hv'
    · rw [hdw]
      have := inv.dsize u hu
      omega
    · rw [hd v hv']
      have := inv.dsize v hv'
      omega

/-- Once all open neighbours of the head of the queue are visited, the head can
leave the queue. -/
theorem BfsInv.pop {m : Maze} {N : Nat} {V : List (List Bool)} {P : List (List Position)}
    {u : Position} {q : List Position} {d : Position → Nat}
    (inv : BfsInv m (N + 1) V P (u :: q) d)
    (hnb : ∀ w, Adj4 u w → m.Open w → Vis V w) : BfsInv m N V P q d := by
  refine ⟨inv.shapeV, inv.shapeP, inv.startVis, inv.startD, inv.par, ?_, ?_, ?_, ?_, ?_,
    inv.dsize⟩
  · intro x hx; exact inv.qvis x (List.mem_cons_of_mem _ hx)
  · exact (List.pairwise_cons.mp inv.sorted).2
  · intro v hv x hx; exact inv.bound v hv x (List.mem_cons_of_mem _ hx)
  · intro u0 hu0 hnot w hadj hopen
    by_cases hu : u0 = u
    · subst hu
      have hw := hnb w hadj hopen
      exact ⟨hw, inv.bound w hw u0 (List.mem_cons_self _ _)⟩
    · have : u0 ∉ u :: q := by
        intro hh
        rcases List.mem_cons.mp hh with h | h
        · exact hu h
        · exact hnot h
      exact inv.proc u0 hu0 this w hadj hopen
  · have := inv.budget
    simp only [List.length_cons] at this
    omega

/-- The neighbour loop of `solveBFS` runs without fault, preserves the
invariant and leaves every open neighbour among the offsets `ds` visited. -/
theorem bfsExpand_inv {m : Maze} (hR : m.Rect) {N : Nat} (u : Position) :
    ∀ (ds : List (Int × Int)) (st : BfsState), (∀ dd ∈ ds, dd ∈ dirs) →
      (∃ d, BfsInv m N st.visited st.parent (u :: st.q) d) →
      ∃ st', bfsExpand m u.1 u.2 ds st = .ok st' ∧
        (∃ d, BfsInv m N st'.visited st'.parent (u :: st'.q) d) ∧
        (∀ p, Vis st.visited p → Vis st'.visited p) ∧
        (∀ dd ∈ ds, m.Open (u.1 + dd.1, u.2 + dd.2) → Vis st'.visited (u.1 + dd.1, u.2 + dd.2))
  | [], st, _, hinv => ⟨st, rfl, hinv, fun _ h => h, fun _ h => by cases h⟩
  | dd :: ds, st, hds, hinv => by
    obtain ⟨d, inv⟩ := hinv
    have hds' : ∀ x ∈ ds, x ∈ dirs := fun x hx => hds x (List.mem_cons_of_mem _ hx)
    have hadj : Adj4 u (u.1 + dd.1, u.2 + dd.2) :=
      adj4_iff_dirs.mpr ⟨dd, hds dd (List.mem_cons_self _ _), rfl⟩
    simp only [bfsExpand]
    obtain ⟨b, hb⟩ := isOpen_total hR (u.1 + dd.1) (u.2 + dd.2)
    cases b with
    | false =>
      rw [hb]
      simp only
      obtain ⟨st', h1, h2, h3, h4⟩ := bfsExpand_inv hR u ds st hds' ⟨d, inv⟩
      refine ⟨st', h1, h2, h3, ?_⟩
      intro x hx hopen
      rcases List.mem_cons.mp hx with rfl | hx
      · unfold Maze.Open at hopen; rw [hb] at hopen; cases hopen
      · exact h4 x hx hopen
    | true =>
      rw [hb]
      simp only
      have hopen : m.Open (u.1 + dd.1, u.2 + dd.2) := hb
      rcases shape_bool inv.shapeV hopen.inBounds with hv | hv
      · have hv' : matAt st.visited (u.1 + dd.1) (u.2 + dd.2) = .ok true := hv
        rw [hv']
        simp only
        obtain ⟨st', h1, h2, h3, h4⟩ := bfsExpand_inv hR u ds st hds' ⟨d, inv⟩
        refine ⟨st', h1, h2, h3, ?_⟩
        intro x hx hopen
        rcases List.mem_cons.mp hx with rfl | hx
        · exact h3 _ hv
        · exact h4 x hx hopen
      · have hv' : matAt st.visited (u.1 + dd.1) (u.2 + dd.2) = .ok false := hv
        rw [hv']
        simp only
        obtain ⟨V', hV⟩ := matSet_of_matAt true hv'
        obtain ⟨y, hy⟩ := (inv.shapeP (u.1 + dd.1, u.2 + dd.2)).mpr hopen.inBounds
        obtain ⟨P', hP⟩ := matSet_of_matAt u hy
        have hP' : matSet st.parent (u.1 + dd.1) (u.2 + dd.2) (u.1, u.2) = .ok P' := hP
        rw [hV, hP']
        simp only
        have inv' := inv.discover (w := (u.1 + dd.1, u.2 + dd.2)) hadj hopen hv hV hP
        obtain ⟨st', h1, h2, h3, h4⟩ :=
          bfsExpand_inv hR u ds ⟨V', P', st.q ++ [(u.1 + dd.1, u.2 + dd.2)]⟩ hds' ⟨_, inv'⟩
        have hmono : ∀ p, Vis st.visited p → Vis V' p := fun p hp =>
          (vis_matSet (w := (u.1 + dd.1, u.2 + dd.2)) hV p).mpr (Or.inr hp)
        refine ⟨st', h1, h2, fun p hp => h3 p (hmono p hp), ?_⟩
        intro x hx hopen
        rcases List.mem_cons.mp hx with rfl | hx
        · exact h3 _ ((vis_matSet (w := (u.1 + x.1, u.2 + x.2)) hV _).mpr (Or.inl rfl))
        · exact h4 x hx hopen

/-- The `while` loop of `solveBFS` terminates within `N + 1` iterations, in a
state whose (logical) queue is empty or headed by the end cell. -/
theorem bfsLoop_inv {m : Maze} (hR : m.Rect) :
    ∀ (fuel N : Nat) (st : BfsState), N < fuel →
      (∃ d, BfsInv m N st.visited st.parent st.q d) →
      ∃ st', bfsLoop m fuel st = .ok st' ∧
        ∃ N' L d, BfsInv m N' st'.visited st'.parent L d ∧ (L = [] ∨ L.head? = some m.end_)
  | 0, N, st, hN, _ => absurd hN (Nat.not_lt_zero N)
  | fuel + 1, N, st, hN, hinv => by
    obtain ⟨d, inv⟩ := hinv
    unfold bfsLoop
    cases hq : st.q with
    | nil =>
      simp only
      rw [hq] at inv
      exact ⟨st, rfl, N, [], d, inv, Or.inl rfl⟩
    | cons p q' =>
      simp only
      rw [hq] at inv
      by_cases hp : p = m.getEnd
      · rw [if_pos hp]
        exact ⟨_, rfl, N, p :: q', d, inv, Or.inr (by rw [hp]; rfl)⟩
      · rw [if_neg hp]
        obtain ⟨st', h1, ⟨d', inv'⟩, -, h4⟩ :=
          bfsExpand_inv hR p dirs ⟨st.visited, st.parent, q'⟩ (fun _ h => h) ⟨d, inv⟩
        rw [h1]
        simp only
        have hNpos : 0 < N := by
          have := inv.budget
          simp only [List.length_cons] at this
          omega
        obtain ⟨N0, rfl⟩ : ∃ N0, N = N0 + 1 := ⟨N - 1, by omega⟩
        have hnb : ∀ w, Adj4 p w → m.Open w → Vis st'.visited w := by
          intro w hadj hopen
          obtain ⟨dd, hdd, rfl⟩ := adj4_iff_dirs.mp hadj
          exact h4 dd hdd hopen
        exact bfsLoop_inv hR fuel N0 st' (by omega) ⟨d', inv'.pop hnb⟩

/-! ## Breadth-first search: what the final state says -/

/-- Levels are bounded by positions along any chain of adjacent open cells, as
long as the chain has not met the end cell at the head of the queue. -/
theorem BfsInv.along {m : Maze} {N : Nat} {V : List (List Bool)} {P : List (List Position)}
    {L : List Position} {d : Position → Nat} (inv : BfsInv m N V P L d) {E : Position}
    (hL : L = [] ∨ L.head? = some E) :
    ∀ (t : List Position) (a : Position) (i : Nat),
      ((Vis V a ∧ d a ≤ i) ∨ (Vis V E ∧ d E ≤ i)) → List.Chain Adj4 a t →
      (∀ p ∈ t, m.Open p) → ∀ b, (a :: t).getLast? = some b →
      (Vis V b ∧ d b ≤ i + t.length) ∨ (Vis V E ∧ d E ≤ i + t.length)
  | [], a, i, h, _, _, b, hb => by
    simp only [List.getLast?_singleton, Option.some.injEq] at hb
    subst hb
    simpa using h
  | x :: t, a, i, h, hch, hop, b, hb => by
    rw [List.chain_cons] at hch
    have hb' : (x :: t).getLast? = some b := by
      rw [List.getLast?_cons_cons] at hb; exact hb
    have hstep : (Vis V x ∧ d x ≤ i + 1) ∨ (Vis V E ∧ d E ≤ i + 1) := by
      rcases h with ⟨hv, hd⟩ | ⟨hv, hd⟩
      · by_cases ha : a ∈ L
        · right
          rcases hL with hnil | hhead
          · rw [hnil] at ha; cases ha
          · cases L with
            | nil => cases ha
            | cons e L' =>
              simp only [List.head?_cons, Option.some.injEq] at hhead
              subst hhead
              refine ⟨inv.qvis e (List.mem_cons_self _ _), ?_⟩
              rcases List.mem_cons.mp ha with rfl | ha'
              · omega
              · have := List.rel_of_pairwise_cons inv.sorted ha'
                omega
        · left
          obtain ⟨hx, hdx⟩ :=
            inv.proc a hv ha x hch.1 (hop x (List.mem_cons_self _ _))
          exact ⟨hx, by omega⟩
      · right; exact ⟨hv, by omega⟩
    have := BfsInv.along inv hL t x (i + 1) hstep hch.2
      (fun p hp => hop p (List.mem_cons_of_mem _ hp)) b hb'
    simp only [List.length_cons]
    have e : i + (t.length + 1) = i + 1 + t.length := by omega
    rw [e]; exact this

/-- If a walk from start to end exists, the end is visited at a level below the
walk's number of cells. -/
theorem BfsInv.walk_bound {m : Maze} {N : Nat} {V : List (List Bool)}
    {P : List (List Position)} {L : List Position} {d : Position → Nat}
    (inv : BfsInv m N V P L d) (hL : L = [] ∨ L.head? = some m.end_)
    {l : List Position} (hw : m.Walk m.start m.end_ l) :
    Vis V m.end_ ∧ d m.end_ + 1 ≤ l.length := by
  obtain ⟨hhead, hlast, hopen, hchain⟩ := hw
  cases l with
  | nil => cases hhead
  | cons a t =>
    simp only [List.head?_cons, Option.some.injEq] at hhead
    subst hhead
    have h0 : (Vis V m.start ∧ d m.start ≤ 0) ∨ (Vis V m.end_ ∧ d m.end_ ≤ 0) :=
      Or.inl ⟨inv.startVis, by rw [inv.startD]⟩
    have := inv.along hL t m.start 0 h0 hchain
      (fun p hp => hopen p (List.mem_cons_of_mem _ hp)) m.end_ hlast
    simp only [List.length_cons]
    rcases this with ⟨h1, h2⟩ | ⟨h1, h2⟩ <;> exact ⟨h1, by omega⟩

theorem BfsInv.level_zero {m : Maze} {N : Nat} {V : List (List Bool)}
    {P : List (List Position)} {L : List Position} {d : Position → Nat}
    (inv : BfsInv m N V P L d) {v : Position} (hv : Vis V v) (h0 : d v = 0) : v = m.start := by
  by_contra hne
  obtain ⟨u, -, -, -, -, hd⟩ := inv.par v hv hne
  omega

/-- The reconstruction loop of `solveBFS`, started at a visited cell of level
`k`, needs `k + 1` units of fuel and appends a parent chain `c` of `k` cells. -/
theorem BfsInv.reconstruct_spec {m : Maze} {N : Nat} {V : List (List Bool)}
    {P : List (List Position)} {L : List Position} {d : Position → Nat}
    (inv : BfsInv m N V P L d) :
    ∀ (k : Nat) (v : Position), Vis V v → d v = k → ∀ fuel, k < fuel → ∀ acc,
      ∃ c, reconstruct m.start P fuel v acc = .ok (acc ++ c) ∧ c.length = k ∧
        (c ++ [m.start]).head? = some v ∧
        (c ++ [m.start]).Chain' (flip Adj4) ∧
        (∀ p ∈ c, m.Open p ∧ d p ≤ k ∧ p ≠ m.start) ∧
        (c ++ [m.start]).Nodup
  | 0, v, hv, hd, fuel, hf, acc => by
    have hvS := inv.level_zero hv hd
    subst hvS
    obtain ⟨f, rfl⟩ : ∃ f, fuel = f + 1 := ⟨fuel - 1, by omega⟩
    refine ⟨[], ?_, rfl, rfl, ?_, ?_, ?_⟩
    · simp [reconstruct]
    · simp
    · intro p hp; cases hp
    · simp
  | k + 1, v, hv, hd, fuel, hf, acc => by
    have hne : v ≠ m.start := by
      intro h; rw [h, inv.startD] at hd; omega
    obtain ⟨u, hP, hu, hadj, hopen, hdu⟩ := inv.par v hv hne
    obtain ⟨f, rfl⟩ : ∃ f, fuel = f + 1 := ⟨fuel - 1, by omega⟩
    obtain ⟨c, hc, hlen, hhead, hchain, hall, hnd⟩ :=
      inv.reconstruct_spec k u hu (by omega) f (by omega) (acc ++ [v])
    refine ⟨v :: c, ?_, ?_, rfl, ?_, ?_, ?_⟩
    · simp only [reconstruct, ne_eq, hne, not_false_eq_true, if_true, hP, hc]
      simp
    · simp [hlen]
    · show List.Chain' (flip Adj4) (v :: (c ++ [m.start]))
      rw [List.chain'_cons']
      refine ⟨?_, hchain⟩
      intro y hy
      rw [hhead] at hy
      cases hy
      exact hadj
    · intro p hp
      rcases List.mem_cons.mp hp with rfl | hp
      · exact ⟨hopen, by omega, hne⟩
      · obtain ⟨h1, h2, h3⟩ := hall p hp
        exact ⟨h1, by omega, h3⟩
    · show List.Nodup (v :: (c ++ [m.start]))
      rw [List.nodup_cons]
      refine ⟨?_, hnd⟩
      intro hmem
      rcases List.mem_append.mp hmem with hmem | hmem
      · have := (hall v hmem).2.1
        omega
      · rw [List.mem_singleton] at hmem
        exact hne hmem

/-- The state in which `solveBFS` enters its `while` loop satisfies the
invariant, with `rows * cols` iterations to go. -/
theorem bfsInv_init {m : Maze} (hS : m.InBounds m.start) {V : List (List Bool)}
    (hV : matSet (mkMatrix m.rows m.cols false) m.start.1 m.start.2 true = .ok V) :
    BfsInv m (m.rows.toNat * m.cols.toNat) V (mkMatrix m.rows m.cols ((-1, -1) : Position))
      [m.start] (fun _ => 0) := by
  have hf : matAt (mkMatrix m.rows m.cols false) m.start.1 m.start.2 = .ok false := by
    rw [matAt_mkMatrix]; exact if_pos hS
  have hcard := unvisited_matSet_lt hS hf hV
  have hle := unvisited_card_le m (mkMatrix m.rows m.cols false)
  have hvis := vis_matSet hV
  have honly : ∀ v, Vis V v → v = m.start := by
    intro v hv
    rcases (hvis v).mp hv with h | h
    · exact h
    · exfalso
      unfold Vis at h
      rw [matAt_mkMatrix] at h
      split at h <;> cases h
  refine ⟨shape_matSet (shape_mkMatrix m false) hV, shape_mkMatrix m _, (hvis _).mpr (Or.inl rfl),
    rfl, ?_, ?_, List.pairwise_singleton _ _, ?_, ?_, ?_, ?_⟩
  · intro v hv hne; exact absurd (honly v hv) hne
  · intro x hx
    rw [List.mem_singleton] at hx
    subst hx
    exact (hvis _).mpr (Or.inl rfl)
  · intro v _ x _; exact Nat.zero_le _
  · intro u hu hnot
    exact absurd (List.mem_singleton.mpr (honly u hu)) hnot
  · simp only [List.length_singleton]; omega
  · intro v _; omega

/-- What `solveBFS` returns on a rectangular maze with an open start and an
in-bounds end: the empty path when no walk exists, otherwise a repetition-free
walk with the fewest cells. -/
theorem solveBFS_spec {m : Maze} (hR : m.Rect) (hS : m.Open m.start)
    (hE : m.InBounds m.end_) :
    ∃ p, solveBFS m = .ok p ∧
      ((p = [] ∧ ∀ l, ¬ m.Walk m.start m.end_ l) ∨
       (m.Walk m.start m.end_ p ∧ p.Nodup ∧ ∀ l, m.Walk m.start m.end_ l → p.length ≤ l.length)) := by
  have hSb := hS.inBounds
  have hf : matAt (mkMatrix m.rows m.cols false) m.start.1 m.start.2 = .ok false := by
    rw [matAt_mkMatrix]; exact if_pos hSb
  obtain ⟨V, hV⟩ := matSet_of_matAt true hf
  have inv0 := bfsInv_init hSb hV
  obtain ⟨st, hloop, N', L, d, inv, hL⟩ :=
    bfsLoop_inv hR (m.rows.toNat * m.cols.toNat + 1) (m.rows.toNat * m.cols.toNat)
      ⟨V, mkMatrix m.rows m.cols ((-1, -1) : Position), [m.start]⟩ (Nat.lt_succ_self _)
      ⟨_, inv0⟩
  unfold solveBFS solveBFSFuel
  simp only [Maze.getStart, Maze.getEnd, Maze.getRows, Maze.getCols, hV, hloop]
  rcases shape_bool inv.shapeV hE with hv | hv
  · have hv' : matAt st.visited m.end_.1 m.end_.2 = .ok true := hv
    rw [hv']
    simp only
    have hk : d m.end_ < m.rows.toNat * m.cols.toNat + 1 := by
      have := inv.dsize _ hv
      omega
    obtain ⟨c, hc, hlen, hhead, hchain, hall, hnd⟩ :=
      inv.reconstruct_spec (d m.end_) m.end_ hv rfl _ hk []
    rw [hc]
    simp only [List.nil_append]
    refine ⟨_, rfl, Or.inr ⟨⟨?_, ?_, ?_, ?_⟩, ?_, ?_⟩⟩
    · simp
    · rw [List.getLast?_reverse]; exact hhead
    · intro p hp
      rw [List.mem_reverse, List.mem_append, List.mem_singleton] at hp
      rcases hp with hp | rfl
      · exact (hall p hp).1
      · exact hS
    · rw [List.chain'_reverse]; exact hchain
    · rw [List.nodup_reverse]; exact hnd
    · intro l hl
      have := (inv.walk_bound hL hl).2
      simp only [List.length_reverse, List.length_append, List.length_singleton]
      omega
  · rw [hv]
    simp only
    refine ⟨[], rfl, Or.inl ⟨rfl, ?_⟩⟩
    intro l hl
    exact (inv.walk_bound hL hl).1.not_false hv

/-! ## Depth-first search -/

theorem openUnvisited_mono {m : Maze} {V V' : List (List Bool)} (hS : Shape m V)
    (hmono : ∀ p, Vis V p → Vis V' p) :
    (openUnvisited m V').card ≤ (openUnvisited m V).card := by
  apply Finset.card_le_card
  intro p
  simp only [openUnvisited, Finset.mem_filter, mem_cells]
  rintro ⟨hp, hopen, hf⟩
  refine ⟨hp, hopen, ?_⟩
  rcases shape_bool hS hp with h | h
  · exact absurd hf (hmono p h).not_false
  · exact h

theorem openUnvisited_matSet_lt {m : Maze} {V V' : List (List Bool)} {w : Position}
    (hw : m.Open w) (hf : matAt V w.1 w.2 = .ok false)
    (h : matSet V w.1 w.2 true = .ok V') :
    (openUnvisited m V').card < (openUnvisited m V).card := by
  apply Finset.card_lt_card
  rw [Finset.ssubset_iff_of_subset]
  · refine ⟨w, ?_, ?_⟩
    · simp only [openUnvisited, Finset.mem_filter, mem_cells]
      exact ⟨hw.inBounds, hw, hf⟩
    · simp only [openUnvisited, Finset.mem_filter, mem_cells, matAt_matSet_same h, not_and]
      intro _ _ hh; cases hh
  · intro p
    simp only [openUnvisited, Finset.mem_filter, mem_cells]
    rintro ⟨hp, hopen, hpf⟩
    refine ⟨hp, hopen, ?_⟩
    by_cases hpw : p = w
    · subst hpw; exact hf
    · have : (p.1, p.2) ≠ (w.1, w.2) := by
        intro hh; apply hpw; exact Prod.ext (congrArg Prod.fst hh) (congrArg Prod.snd hh)
      rw [← matAt_matSet_other h this]; exact hpf

theorem openUnvisited_card_le (m : Maze) (V : List (List Bool)) :
    (openUnvisited m V).card ≤ m.rows.toNat * m.cols.toNat := by
  rw [← card_cells]
  exact Finset.card_le_card (Finset.filter_subset _ _)

theorem not_vis_false {m : Maze} {V : List (List Bool)} (hS : Shape m V) {p : Position}
    (hp : m.InBounds p) (h : ¬ Vis V p) : matAt V p.1 p.2 = .ok false := by
  rcases shape_bool hS hp with h' | h'
  · exact absurd h' h
  · exact h'

/-- The neighbour loop of `dfsUtil` meets its postcondition when the recursive
calls meet theirs. -/
theorem dfsLoop_ok {m : Maze} (hR : m.Rect) {E cur : Position} {n : Nat}
    {call : Position → List (List Bool) → List Position → Except Fault DfsOut}
    (hcall : DfsCallOK m E n call) :
    ∀ (ds : List (Int × Int)) (V : List (List Bool)) (path : List Position),
      (∀ dd ∈ ds, dd ∈ dirs) → Shape m V → Vis V cur → ¬ Vis V E →
      (openUnvisited m V).card ≤ n →
      ∃ out, dfsLoop m call cur ds V path = .ok out ∧ DfsLoopPost m E cur ds V path out
  | [], V, path, _, hSh, _, hE, _ =>
    ⟨(false, V, path), rfl, ⟨hSh, fun _ h => h, hE, (fun h => by cases h),
      fun _ => ⟨rfl, (fun _ h => by cases h), fun x hx hnx => absurd hx hnx⟩⟩⟩
  | dd :: ds, V, path, hds, hSh, hcur, hE, hcnt => by
    have hds' : ∀ x ∈ ds, x ∈ dirs := fun x hx => hds x (List.mem_cons_of_mem _ hx)
    have hadj : Adj4 cur (cur.1 + dd.1, cur.2 + dd.2) :=
      adj4_iff_dirs.mpr ⟨dd, hds dd (List.mem_cons_self _ _), rfl⟩
    simp only [dfsLoop]
    obtain ⟨b, hb⟩ := isOpen_total hR (cur.1 + dd.1) (cur.2 + dd.2)
    cases b with
    | false =>
      rw [hb]
      simp only
      obtain ⟨out, h1, post⟩ := dfsLoop_ok hR hcall ds V path hds' hSh hcur hE hcnt
      refine ⟨out, h1, post.shape, post.mono, post.endFree, post.found, ?_⟩
      intro hout
      obtain ⟨h2, h3, h4⟩ := post.notFound hout
      refine ⟨h2, ?_, h4⟩
      intro x hx hopen
      rcases List.mem_cons.mp hx with rfl | hx
      · unfold Maze.Open at hopen; rw [hb] at hopen; cases hopen
      · exact h3 x hx hopen
    | true =>
      rw [hb]
      simp only
      have hopen : m.Open (cur.1 + dd.1, cur.2 + dd.2) := hb
      rcases shape_bool hSh hopen.inBounds with hv | hv
      · have hv' : matAt V (cur.1 + dd.1) (cur.2 + dd.2) = .ok true := hv
        rw [hv']
        simp only
        obtain ⟨out, h1, post⟩ := dfsLoop_ok hR hcall ds V path hds' hSh hcur hE hcnt
        refine ⟨out, h1, post.shape, post.mono, post.endFree, post.found, ?_⟩
        intro hout
        obtain ⟨h2, h3, h4⟩ := post.notFound hout
        refine ⟨h2, ?_, h4⟩
        intro x hx hopen
        rcases List.mem_cons.mp hx with rfl | hx
        · exact post.mono _ hv
        · exact h3 x hx hopen
      · have hv' : matAt V (cur.1 + dd.1) (cur.2 + dd.2) = .ok false := hv
        rw [hv']
        simp only
        have hnv : ¬ Vis V (cur.1 + dd.1, cur.2 + dd.2) := fun h => h.not_false hv
        obtain ⟨⟨b, V', path'⟩, hc, cpost⟩ := hcall _ V path hSh hopen hnv hE hcnt
        rw [hc]
        cases b with
        | true =>
          simp only
          obtain ⟨route, hp, hhead, hlast, hchain, hall, hnd⟩ := cpost.found rfl
          refine ⟨_, rfl, cpost.shape, cpost.mono, cpost.endFree, ?_, fun h => by cases h⟩
          intro _
          refine ⟨route, ?_, ?_, ?_, hall, hnd⟩
          · show path' ++ [cur] = path ++ (cur :: route).reverse
            rw [List.reverse_cons, ← List.append_assoc]
            exact congrArg (· ++ [cur]) hp
          · cases route with
            | nil => cases hhead
            | cons y t => rw [List.getLast?_cons_cons]; exact hlast
          · rw [List.chain'_cons']
            refine ⟨?_, hchain⟩
            intro y hy
            rw [hhead] at hy
            cases hy
            exact hadj
        | false =>
          simp only
          obtain ⟨hp, hvn, hclosed⟩ := cpost.notFound rfl
          have hp' : path' = path := hp
          subst hp'
          have hcnt' : (openUnvisited m V').card ≤ n :=
            le_trans (openUnvisited_mono hSh cpost.mono) hcnt
          obtain ⟨out, h1, post⟩ :=
            dfsLoop_ok hR hcall ds V' path' hds' cpost.shape (cpost.mono _ hcur)
              cpost.endFree hcnt'
          refine ⟨out, h1, post.shape, fun p hp => post.mono p (cpost.mono p hp), post.endFree,
            ?_, ?_⟩
          · intro hout
            obtain ⟨route, h2, h3, h4, h5, h6⟩ := post.found hout
            exact ⟨route, h2, h3, h4, fun p hp => ⟨(h5 p hp).1,
              fun hh => (h5 p hp).2 (cpost.mono p hh)⟩, h6⟩
          · intro hout
            obtain ⟨h2, h3, h4⟩ := post.notFound hout
            refine ⟨h2, ?_, ?_⟩
            · intro x hx hopen
              rcases List.mem_cons.mp hx with rfl | hx
              · exact post.mono _ hvn
              · exact h3 x hx hopen
            · intro x hx hnx w hxw how
              by_cases hx' : Vis V' x
              · exact post.mono _ (hclosed x hx' hnx w hxw how)
              · exact h4 x hx hx' w hxw how

/-- With nesting depth `n`, `dfsUtil` meets its postcondition whenever at most
`n` open cells are unvisited. -/
theorem dfsUtil_ok {m : Maze} (hR : m.Rect) (E : Position) :
    ∀ n : Nat, DfsCallOK m E n (fun p v pt => dfsUtil m n p E v pt)
  | 0 => by
    intro cur V path hSh hopen hnv _ hcnt
    exfalso
    have hmem : cur ∈ openUnvisited m V := by
      simp only [openUnvisited, Finset.mem_filter, mem_cells]
      exact ⟨hopen.inBounds, hopen, not_vis_false hSh hopen.inBounds hnv⟩
    have := Finset.card_pos.mpr ⟨cur, hmem⟩
    omega
  | n + 1 => by
    intro cur V path hSh hopen hnv hE hcnt
    simp only [dfsUtil]
    by_cases hce : cur = E
    · rw [if_pos hce]
      refine ⟨_, rfl, hSh, fun _ h => h, hE, ?_, fun h => by cases h⟩
      intro _
      refine ⟨[cur], rfl, rfl, by rw [hce]; rfl, List.chain'_singleton _, ?_,
        List.nodup_singleton _⟩
      intro p hp
      rw [List.mem_singleton] at hp
      subst hp
      exact ⟨hopen, hnv⟩
    · rw [if_neg hce]
      have hf := not_vis_false hSh hopen.inBounds hnv
      obtain ⟨V1, hV1⟩ := matSet_of_matAt true hf
      rw [hV1]
      simp only
      have hvis := vis_matSet hV1
      have hcnt1 : (openUnvisited m V1).card ≤ n := by
        have := openUnvisited_matSet_lt hopen hf hV1
        omega
      have hE1 : ¬ Vis V1 E := by
        intro h
        rcases (hvis E).mp h with h | h
        · exact hce h.symm
        · exact hE h
      obtain ⟨out, h1, post⟩ :=
        dfsLoop_ok hR (dfsUtil_ok hR E n) dirs V1 path (fun _ h => h)
          (shape_matSet hSh hV1) ((hvis cur).mpr (Or.inl rfl)) hE1 hcnt1
      refine ⟨out, h1, post.shape, fun p hp => post.mono p ((hvis p).mpr (Or.inr hp)),
        post.endFree, ?_, ?_⟩
      · intro hout
        obtain ⟨route, h2, h3, h4, h5, h6⟩ := post.found hout
        refine ⟨cur :: route, h2, rfl, h3, h4, ?_, ?_⟩
        · intro p hp
          rcases List.mem_cons.mp hp with rfl | hp
          · exact ⟨hopen, hnv⟩
          · exact ⟨(h5 p hp).1, fun hh => (h5 p hp).2 ((hvis p).mpr (Or.inr hh))⟩
        · rw [List.nodup_cons]
          refine ⟨?_, h6⟩
          intro hmem
          exact (h5 cur hmem).2 ((hvis cur).mpr (Or.inl rfl))
      · intro hout
        obtain ⟨h2, h3, h4⟩ := post.notFound hout
        refine ⟨h2, post.mono _ ((hvis cur).mpr (Or.inl rfl)), ?_⟩
        intro x hx hnx w hxw how
        by_cases hxc : x = cur
        · subst hxc
          obtain ⟨dd, hdd, rfl⟩ := adj4_iff_dirs.mp hxw
          exact h3 dd hdd how
        · have hnx1 : ¬ Vis V1 x := by
            intro h
            rcases (hvis x).mp h with h | h
            · exact hxc h
            · exact hnx h
          exact h4 x hx hnx1 w hxw how

/-- A set of cells closed under open neighbours that contains the head of a
chain of open cells contains the whole chain. -/
theorem closed_chain {m : Maze} {V : List (List Bool)}
    (hcl : ∀ x, Vis V x → ∀ w, Adj4 x w → m.Open w → Vis V w) :
    ∀ (t : List Position) (a : Position), Vis V a → List.Chain Adj4 a t →
      (∀ p ∈ t, m.Open p) → ∀ b, (a :: t).getLast? = some b → Vis V b
  | [], a, ha, _, _, b, hb => by
    simp only [List.getLast?_singleton, Option.some.injEq] at hb
    subst hb; exact ha
  | x :: t, a, ha, hch, hop, b, hb => by
    rw [List.chain_cons] at hch
    rw [List.getLast?_cons_cons] at hb
    exact closed_chain hcl t x (hcl a ha x hch.1 (hop x (List.mem_cons_self _ _))) hch.2
      (fun p hp => hop p (List.mem_cons_of_mem _ hp)) b hb

/-- What `solveDFS` returns on a rectangular maze with an open start: the empty
path when no walk exists, otherwise a repetition-free walk. -/
theorem solveDFS_spec {m : Maze} (hR : m.Rect) (hS : m.Open m.start) :
    ∃ p, solveDFS m = .ok p ∧
      ((p = [] ∧ ∀ l, ¬ m.Walk m.start m.end_ l) ∨ (m.Walk m.start m.end_ p ∧ p.Nodup)) := by
  have hnoV : ∀ p, ¬ Vis (mkMatrix m.rows m.cols false) p := by
    intro p h
    unfold Vis at h
    rw [matAt_mkMatrix] at h
    split at h <;> cases h
  obtain ⟨⟨b, V', path'⟩, hc, post⟩ :=
    dfsUtil_ok hR m.end_ (m.rows.toNat * m.cols.toNat + 1) m.start
      (mkMatrix m.rows m.cols false) [] (shape_mkMatrix m false) hS (hnoV _) (hnoV _)
      (le_trans (openUnvisited_card_le m _) (Nat.le_succ _))
  unfold solveDFS solveDFSFuel
  simp only [Maze.getStart, Maze.getEnd, Maze.getRows, Maze.getCols]
  simp only at hc
  rw [hc]
  cases b with
  | true =>
    simp only
    obtain ⟨route, h2, h3, h4, h5, h6, h7⟩ := post.found rfl
    have h2' : path' = route.reverse := by simpa using h2
    subst h2'
    rw [List.reverse_reverse]
    exact ⟨route, rfl, Or.inr ⟨⟨h3, h4, fun p hp => (h6 p hp).1, h5⟩, h7⟩⟩
  | false =>
    simp only
    obtain ⟨h2, h3, h4⟩ := post.notFound rfl
    have h2' : path' = [] := h2
    subst h2'
    refine ⟨[], rfl, Or.inl ⟨rfl, ?_⟩⟩
    rintro l ⟨hhead, hlast, hopen, hchain⟩
    cases l with
    | nil => cases hhead
    | cons a t =>
      simp only [List.head?_cons, Option.some.injEq] at hhead
      subst hhead
      have hcl : ∀ x, Vis V' x → ∀ w, Adj4 x w → m.Open w → Vis V' w :=
        fun x hx w hxw how => h4 x hx (hnoV x) w hxw how
      exact post.endFree (closed_chain hcl t m.start h3 hchain
        (fun p hp => hopen p (List.mem_cons_of_mem _ hp)) m.end_ hlast)

/-! ## Facts about the sample mazes -/

theorem maze3_rect : maze3.Rect := ⟨by decide, by decide, by decide, by decide⟩

theorem mazeWall_rect : mazeWall.Rect := ⟨by decide, by decide, by decide, by decide⟩

theorem mazeDetour_rect : mazeDetour.Rect := ⟨by decide, by decide, by decide, by decide⟩

theorem maze3_walk :
    maze3.Walk maze3.getStart maze3.getEnd [(0, 0), (1, 0), (2, 0), (2, 1), (2, 2)] := by
  refine ⟨by decide, by decide, by decide, ?_⟩
  show List.Chain Adj4 _ _
  repeat (first | exact List.Chain.nil | apply List.Chain.cons (by decide))

/-- When `solveDFS` returns the empty path, no walk from start to end exists. -/
theorem no_walk_of_solveDFS_nil {m : Maze} (hR : m.Rect) (hS : m.Open m.start)
    (h : solveDFS m = .ok []) : ∀ l, ¬ m.Walk m.start m.end_ l := by
  obtain ⟨p, hp, hcase⟩ := solveDFS_spec hR hS
  rw [h] at hp
  cases hp
  rcases hcase with ⟨-, hno⟩ | ⟨hw, -⟩
  · exact hno
  · cases hw.1

/-! ## The claims -/

/-- C1: on a rectangular maze with at least one row and column whose start and
end are open, if some sequence of 4-directionally adjacent open cells leads from
start to end, then `solveBFS` returns a non-empty path that is such a sequence
and has no more cells than any other such sequence. -/
theorem solveBFS_shortest (m : Maze) (hR : m.Rect) (hS : m.Open m.getStart)
    (hE : m.Open m.getEnd) (hex : ∃ l, m.Walk m.getStart m.getEnd l) :
    ∃ p, solveBFS m = .ok p ∧ p ≠ [] ∧ m.Walk m.getStart m.getEnd p ∧
      ∀ l, m.Walk m.getStart m.getEnd l → p.length ≤ l.length := by
  obtain ⟨p, hp, hcase⟩ := solveBFS_spec hR hS hE.inBounds
  obtain ⟨l, hl⟩ := hex
  rcases hcase with ⟨-, hno⟩ | ⟨hw, -, hmin⟩
  · exact absurd hl (hno l)
  · refine ⟨p, hp, ?_, hw, hmin⟩
    intro hnil
    rw [hnil] at hw
    cases hw.1

theorem solveBFS_shortest_witness :
    maze3.Rect ∧ maze3.Open maze3.getStart ∧ maze3.Open maze3.getEnd ∧
    ∃ p, solveBFS maze3 = .ok p ∧ p ≠ [] ∧ maze3.Walk maze3.getStart maze3.getEnd p ∧
      ∀ l, maze3.Walk maze3.getStart maze3.getEnd l → p.length ≤ l.length :=
  ⟨maze3_rect, by decide, by decide,
    solveBFS_shortest maze3 maze3_rect (by decide) (by decide)
      ⟨_, maze3_walk⟩⟩

/-- C2: on a rectangular maze whose start and end are open, `solveBFS` returns a
path, and when that path is non-empty it starts at `getStart()`, ends at
`getEnd()`, consists of cells on which `isOpen` is true, moves by one step up,
down, left or right between consecutive cells, and repeats no cell. -/
theorem solveBFS_path_valid (m : Maze) (hR : m.Rect) (hS : m.Open m.getStart)
    (hE : m.Open m.getEnd) :
    ∃ p, solveBFS m = .ok p ∧ (p ≠ [] →
      p.head? = some m.getStart ∧ p.getLast? = some m.getEnd ∧
      (∀ q ∈ p, m.isOpen q.1 q.2 = .ok true) ∧ p.Chain' Adj4 ∧ p.Nodup) := by
  obtain ⟨p, hp, hcase⟩ := solveBFS_spec hR hS hE.inBounds
  refine ⟨p, hp, ?_⟩
  intro hne
  rcases hcase with ⟨hnil, -⟩ | ⟨hw, hnd, -⟩
  · exact absurd hnil hne
  · exact ⟨hw.1, hw.2.1, hw.2.2.1, hw.2.2.2, hnd⟩

theorem solveBFS_path_valid_witness :
    mazeDetour.Rect ∧ mazeDetour.Open mazeDetour.getStart ∧ mazeDetour.Open mazeDetour.getEnd ∧
    ∃ p, solveBFS mazeDetour = .ok p ∧ (p ≠ [] →
      p.head? = some mazeDetour.getStart ∧ p.getLast? = some mazeDetour.getEnd ∧
      (∀ q ∈ p, mazeDetour.isOpen q.1 q.2 = .ok true) ∧ p.Chain' Adj4 ∧ p.Nodup) :=
  ⟨mazeDetour_rect, by decide, by decide,
    solveBFS_path_valid mazeDetour mazeDetour_rect (by decide) (by decide)⟩

/-- C3: on a rectangular maze whose start and end are open, `solveDFS` returns a
path, and when that path is non-empty it starts at `getStart()`, ends at
`getEnd()`, consists of cells on which `isOpen` is true, moves by one step up,
down, left or right between consecutive cells, and repeats no cell. -/
theorem solveDFS_path_valid (m : Maze) (hR : m.Rect) (hS : m.Open m.getStart)
    (_hE : m.Open m.getEnd) :
    ∃ p, solveDFS m = .ok p ∧ (p ≠ [] →
      p.head? = some m.getStart ∧ p.getLast? = some m.getEnd ∧
      (∀ q ∈ p, m.isOpen q.1 q.2 = .ok true) ∧ p.Chain' Adj4 ∧ p.Nodup) := by
  obtain ⟨p, hp, hcase⟩ := solveDFS_spec hR hS
  refine ⟨p, hp, ?_⟩
  intro hne
  rcases hcase with ⟨hnil, -⟩ | ⟨hw, hnd⟩
  · exact absurd hnil hne
  · exact ⟨hw.1, hw.2.1, hw.2.2.1, hw.2.2.2, hnd⟩

theorem solveDFS_path_valid_witness :
    mazeDetour.Rect ∧ mazeDetour.Open mazeDetour.getStart ∧ mazeDetour.Open mazeDetour.getEnd ∧
    ∃ p, solveDFS mazeDetour = .ok p ∧ (p ≠ [] →
      p.head? = some mazeDetour.getStart ∧ p.getLast? = some mazeDetour.getEnd ∧
      (∀ q ∈ p, mazeDetour.isOpen q.1 q.2 = .ok true) ∧ p.Chain' Adj4 ∧ p.Nodup) :=
  ⟨mazeDetour_rect, by decide, by decide,
    solveDFS_path_valid mazeDetour mazeDetour_rect (by decide) (by decide)⟩

/-- C4: on a rectangular maze whose start is open and whose end is in bounds,
if no sequence of 4-directionally adjacent open cells leads from start to end,
then `solveDFS` and `solveBFS` both return the empty path. -/
theorem solve_empty_of_no_walk (m : Maze) (hR : m.Rect) (hS : m.Open m.getStart)
    (hE : m.InBounds m.getEnd) (hno : ¬ ∃ l, m.Walk m.getStart m.getEnd l) :
    solveDFS m = .ok [] ∧ solveBFS m = .ok [] := by
  obtain ⟨pd, hpd, hd⟩ := solveDFS_spec hR hS
  obtain ⟨pb, hpb, hb⟩ := solveBFS_spec hR hS hE
  constructor
  · rcases hd with ⟨hnil, -⟩ | ⟨hw, -⟩
    · rw [hpd, hnil]
    · exact absurd ⟨pd, hw⟩ hno
  · rcases hb with ⟨hnil, -⟩ | ⟨hw, -⟩
    · rw [hpb, hnil]
    · exact absurd ⟨pb, hw⟩ hno

theorem solve_empty_of_no_walk_witness :
    mazeWall.Rect ∧ mazeWall.Open mazeWall.getStart ∧ mazeWall.InBounds mazeWall.getEnd ∧
    (¬ ∃ l, mazeWall.Walk mazeWall.getStart mazeWall.getEnd l) ∧
    solveDFS mazeWall = .ok [] ∧ solveBFS mazeWall = .ok [] :=
  have hno : ¬ ∃ l, mazeWall.Walk mazeWall.getStart mazeWall.getEnd l :=
    fun ⟨l, hl⟩ => no_walk_of_solveDFS_nil mazeWall_rect (by decide) (by decide) l hl
  ⟨mazeWall_rect, by decide, by decide, hno,
    solve_empty_of_no_walk mazeWall mazeWall_rect (by decide) (by decide) hno⟩

/-- C6: when the start position equals the end position and lies inside the
`rows × cols` bounds, `solveDFS` and `solveBFS` both return the one-element
path `[start]`. -/
theorem solve_start_eq_end (m : Maze) (hSE : m.getStart = m.getEnd)
    (hb : m.InBounds m.getStart) :
    solveDFS m = .ok [m.getStart] ∧ solveBFS m = .ok [m.getStart] := by
  have hSE' : m.end_ = m.start := hSE.symm
  have hb' : m.InBounds m.start := hb
  constructor
  · simp [solveDFS, solveDFSFuel, dfsUtil, Maze.getStart, Maze.getEnd, hSE']
  · have hf : matAt (mkMatrix m.rows m.cols false) m.start.1 m.start.2 = .ok false := by
      rw [matAt_mkMatrix]; exact if_pos hb'
    obtain ⟨V, hV⟩ := matSet_of_matAt true hf
    have hVt := matAt_matSet_same hV
    simp [solveBFS, solveBFSFuel, bfsLoop, reconstruct, Maze.getStart, Maze.getEnd,
      Maze.getRows, Maze.getCols, hSE', hV, hVt]

theorem solve_start_eq_end_witness :
    mazeSame.getStart = mazeSame.getEnd ∧ mazeSame.InBounds mazeSame.getStart ∧
    solveDFS mazeSame = .ok [mazeSame.getStart] ∧ solveBFS mazeSame = .ok [mazeSame.getStart] :=
  ⟨by decide, by decide, solve_start_eq_end mazeSame (by decide) (by decide)⟩

/-- C7: on a rectangular maze whose start and end are open, `solveBFS` and
`solveDFS` both return a path, and the one of `solveBFS` has at most as many
cells as the one of `solveDFS`. -/
theorem solveBFS_le_solveDFS (m : Maze) (hR : m.Rect) (hS : m.Open m.getStart)
    (hE : m.Open m.getEnd) :
    ∃ pb pd, solveBFS m = .ok pb ∧ solveDFS m = .ok pd ∧ pb.length ≤ pd.length := by
  obtain ⟨pd, hpd, hd⟩ := solveDFS_spec hR hS
  obtain ⟨pb, hpb, hb⟩ := solveBFS_spec hR hS hE.inBounds
  refine ⟨pb, pd, hpb, hpd, ?_⟩
  rcases hb with ⟨hnil, -⟩ | ⟨hwb, -, hmin⟩
  · rw [hnil]; exact Nat.zero_le _
  · rcases hd with ⟨-, hno⟩ | ⟨hw, -⟩
    · exact absurd hwb (hno pb)
    · exact hmin pd hw

theorem solveBFS_le_solveDFS_witness :
    mazeDetour.Rect ∧ mazeDetour.Open mazeDetour.getStart ∧ mazeDetour.Open mazeDetour.getEnd ∧
    ∃ pb pd, solveBFS mazeDetour = .ok pb ∧ solveDFS mazeDetour = .ok pd ∧
      pb.length ≤ pd.length :=
  ⟨mazeDetour_rect, by decide, by decide,
    solveBFS_le_solveDFS mazeDetour mazeDetour_rect (by decide) (by decide)⟩

/-- C8: loading the text `S.#` / `.#.` / `..E` gives the 3x3 maze with start
`(0,0)` and end `(2,2)`, on which `solveBFS` and `solveDFS` both return
`[(0,0),(1,0),(2,0),(2,1),(2,2)]`. -/
theorem solve_maze3 :
    Maze.new.load "S.#\n.#.\n..E\n".toList = .ok maze3 ∧
    solveBFS maze3 = .ok [(0, 0), (1, 0), (2, 0), (2, 1), (2, 2)] ∧
    solveDFS maze3 = .ok [(0, 0), (1, 0), (2, 0), (2, 1), (2, 2)] := by
  decide

/-- C9: when every position of the path lies inside the grid, `markPath` with a
given path and mark character succeeds, and applying it again to its result
gives that same result. -/
theorem markPath_idempotent (m : Maze) (path : List Position) (mark : Char)
    (hin : ∀ p ∈ path, ∃ ch, matAt m.grid p.1 p.2 = .ok ch) :
    ∃ m1, m.markPath path mark = .ok m1 ∧ m1.markPath path mark = .ok m1 := by
  obtain ⟨g1, hg1⟩ := markCells_defined mark path hin
  obtain ⟨-, hcell⟩ := markCells_spec path hg1
  have hst : markCells mark path g1 = .ok g1 := by
    apply markCells_stable
    intro p hp
    obtain ⟨ch, hch⟩ := hin p hp
    refine ⟨_, hcell p.1 p.2 ch hch, ?_⟩
    by_cases he : ch = ' ' ∨ ch = '.'
    · intro _; simp [hp, he]
    · intro h
      have hif : (if (p.1, p.2) ∈ path ∧ (ch = ' ' ∨ ch = '.') then mark else ch) = ch := by
        simp [he]
      rw [hif] at h
      exact absurd h he
  refine ⟨⟨g1, m.rows, m.cols, m.start, m.end_⟩, ?_, ?_⟩
  · simp only [Maze.markPath, hg1]
  · simp only [Maze.markPath, hst]

theorem markPath_idempotent_witness :
    (∀ p ∈ [((0 : Int), (1 : Int)), (0, 2), (0, 3), (0, 1)],
      ∃ ch, matAt mazeRow.grid p.1 p.2 = .ok ch) ∧
    ∃ m1, mazeRow.markPath [(0, 1), (0, 2), (0, 3), (0, 1)] '.' = .ok m1 ∧
      m1.markPath [(0, 1), (0, 2), (0, 3), (0, 1)] '.' = .ok m1 :=
  have hin : ∀ p ∈ [((0 : Int), (1 : Int)), (0, 2), (0, 3), (0, 1)],
      ∃ ch, matAt mazeRow.grid p.1 p.2 = .ok ch := by
    intro p hp
    simp only [List.mem_cons, List.mem_singleton, List.not_mem_nil, or_false] at hp
    rcases hp with rfl | rfl | rfl | rfl
    · exact ⟨'.', by decide⟩
    · exact ⟨' ', by decide⟩
    · exact ⟨'E', by decide⟩
    · exact ⟨'.', by decide⟩
  ⟨hin, markPath_idempotent mazeRow _ '.' hin⟩

/-- C10: when every position of the path lies inside the grid, `markPath`
succeeds; a cell that is on the path and held `' '` or `'.'` holds the mark
character afterwards, every other cell (in particular every cell holding `'S'`,
`'E'` or `'#'`, and every cell off the path) keeps its character, and the number
of rows, each row's length, `rows`, `cols`, start and end are unchanged. -/
theorem markPath_frame (m : Maze) (path : List Position) (mark : Char)
    (hin : ∀ p ∈ path, ∃ ch, matAt m.grid p.1 p.2 = .ok ch) :
    ∃ m1, m.markPath path mark = .ok m1 ∧
      m1.grid.map List.length = m.grid.map List.length ∧
      m1.rows = m.rows ∧ m1.cols = m.cols ∧ m1.start = m.start ∧ m1.end_ = m.end_ ∧
      ∀ r c ch, matAt m.grid r c = .ok ch →
        matAt m1.grid r c =
          .ok (if (r, c) ∈ path ∧ (ch = ' ' ∨ ch = '.') then mark else ch) := by
  obtain ⟨g1, hg1⟩ := markCells_defined mark path hin
  obtain ⟨hlen, hcell⟩ := markCells_spec path hg1
  refine ⟨⟨g1, m.rows, m.cols, m.start, m.end_⟩, ?_, hlen, rfl, rfl, rfl, rfl, hcell⟩
  simp only [Maze.markPath, hg1]

theorem markPath_frame_witness :
    (∀ p ∈ [((0 : Int), (0 : Int)), (1, 0), (2, 0), (2, 1), (2, 2)],
      ∃ ch, matAt maze3.grid p.1 p.2 = .ok ch) ∧
    ∃ m1, maze3.markPath [(0, 0), (1, 0), (2, 0), (2, 1), (2, 2)] '*' = .ok m1 ∧
      m1.grid.map List.length = maze3.grid.map List.length ∧
      m1.rows = maze3.rows ∧ m1.cols = maze3.cols ∧ m1.start = maze3.start ∧
      m1.end_ = maze3.end_ ∧
      ∀ r c ch, matAt maze3.grid r c = .ok ch →
        matAt m1.grid r c =
          .ok (if (r, c) ∈ [((0 : Int), (0 : Int)), (1, 0), (2, 0), (2, 1), (2, 2)] ∧
            (ch = ' ' ∨ ch = '.') then '*' else ch) :=
  have hin : ∀ p ∈ [((0 : Int), (0 : Int)), (1, 0), (2, 0), (2, 1), (2, 2)],
      ∃ ch, matAt maze3.grid p.1 p.2 = .ok ch := by
    intro p hp
    simp only [List.mem_cons, List.mem_singleton, List.not_mem_nil, or_false] at hp
    rcases hp with rfl | rfl | rfl | rfl | rfl
    · exact ⟨'S', by decide⟩
    · exact ⟨'.', by decide⟩
    · exact ⟨'.', by decide⟩
    · exact ⟨'.', by decide⟩
    · exact ⟨'E', by decide⟩
  ⟨hin, markPath_frame maze3 _ '*' hin⟩

/-! ## `isOpen` -/

/-- C11: on a grid whose rows all have `cols` characters and whose row count is
`rows`, `isOpen(r, c)` returns a boolean for all integers `r` and `c`, and it
returns `true` exactly when `0 <= r < rows`, `0 <= c < cols` and the character
at `(r, c)` is not `'#'`. -/
theorem isOpen_iff (m : Maze) (hrows : m.rows = m.grid.length)
    (hcols : ∀ row ∈ m.grid, (row.length : Int) = m.cols) (r c : Int) :
    ∃ b, m.isOpen r c = .ok b ∧
      (b = true ↔ (0 ≤ r ∧ r < m.rows ∧ 0 ≤ c ∧ c < m.cols ∧
        ∃ ch, matAt m.grid r c = .ok ch ∧ ch ≠ '#')) := by
  unfold Maze.isOpen
  by_cases h : r ≥ 0 ∧ r < m.rows ∧ c ≥ 0 ∧ c < m.cols
  · rw [if_pos h]
    obtain ⟨h1, h2, h3, h4⟩ := h
    have hlt : r.toNat < m.grid.length := by omega
    have hrow : m.grid[r.toNat]? = some (m.grid[r.toNat]) := List.getElem?_eq_getElem hlt
    have hlen := hcols _ (List.getElem_mem hlt)
    have hclt : c.toNat < (m.grid[r.toNat]).length := by omega
    have hmat : matAt m.grid r c = .ok ((m.grid[r.toNat])[c.toNat]) :=
      matAt_eq_ok.mpr ⟨h1, h3, _, hrow, List.getElem?_eq_getElem hclt⟩
    rw [gridAt_of_matAt hmat]
    refine ⟨_, rfl, ?_⟩
    constructor
    · intro hb
      refine ⟨h1, h2, h3, h4, _, hmat, ?_⟩
      simpa using hb
    · rintro ⟨-, -, -, -, ch, hch, hne⟩
      rw [hmat] at hch
      cases hch
      simpa using hne
  · rw [if_neg h]
    refine ⟨false, rfl, ?_⟩
    constructor
    · intro hb; cases hb
    · rintro ⟨h1, h2, h3, h4, -⟩
      exact absurd ⟨h1, h2, h3, h4⟩ h

theorem isOpen_iff_witness :
    maze3.rows = maze3.grid.length ∧ (∀ row ∈ maze3.grid, (row.length : Int) = maze3.cols) ∧
    ∃ b, maze3.isOpen 2 2 = .ok b ∧
      (b = true ↔ ((0 : Int) ≤ 2 ∧ 2 < maze3.rows ∧ (0 : Int) ≤ 2 ∧ 2 < maze3.cols ∧
        ∃ ch, matAt maze3.grid 2 2 = .ok ch ∧ ch ≠ '#')) :=
  ⟨by decide, by decide, isOpen_iff maze3 (by decide) (by decide) 2 2⟩

/-! ## Start or end on a wall, empty mazes -/

theorem not_vis_mkMatrix (m : Maze) (p : Position) :
    ¬ Vis (mkMatrix m.rows m.cols false) p := by
  intro h
  unfold Vis at h
  rw [matAt_mkMatrix] at h
  split at h <;> cases h

/-- With the start in bounds and different from the end, `solveDFS` returns the
empty path when the end is not an open cell. -/
theorem solveDFS_end_closed {m : Maze} (hR : m.Rect) (hS : m.InBounds m.start)
    (hne : m.start ≠ m.end_) (hE : ¬ m.Open m.end_) : solveDFS m = .ok [] := by
  have hf : matAt (mkMatrix m.rows m.cols false) m.start.1 m.start.2 = .ok false := by
    rw [matAt_mkMatrix]; exact if_pos hS
  obtain ⟨V1, hV1⟩ := matSet_of_matAt true hf
  have hvis := vis_matSet hV1
  have hE1 : ¬ Vis V1 m.end_ := by
    intro h
    rcases (hvis _).mp h with h | h
    · exact hne h.symm
    · exact not_vis_mkMatrix m _ h
  obtain ⟨⟨b, V', path'⟩, hc, post⟩ :=
    dfsLoop_ok hR (dfsUtil_ok hR m.end_ (m.rows.toNat * m.cols.toNat)) dirs V1 []
      (fun _ h => h) (shape_matSet (shape_mkMatrix m false) hV1) ((hvis _).mpr (Or.inl rfl))
      hE1 (openUnvisited_card_le m V1)
  unfold solveDFS solveDFSFuel
  simp only [Maze.getStart, Maze.getEnd, Maze.getRows, Maze.getCols, dfsUtil, if_neg hne, hV1]
  rw [hc]
  cases b with
  | true =>
    exfalso
    obtain ⟨route, -, hlast, -, hall, -⟩ := post.found rfl
    cases route with
    | nil =>
      simp only [List.getLast?_singleton, Option.some.injEq] at hlast
      exact hne hlast
    | cons y t =>
      rw [List.getLast?_cons_cons] at hlast
      exact hE (hall _ (List.mem_of_getLast?_eq_some hlast)).1
  | false =>
    obtain ⟨h2, -, -⟩ := post.notFound rfl
    have h2' : path' = [] := h2
    subst h2'
    rfl

/-- With start and end in bounds and different, `solveBFS` returns the empty
path when the end is not an open cell. -/
theorem solveBFS_end_closed {m : Maze} (hR : m.Rect) (hS : m.InBounds m.start)
    (hEin : m.InBounds m.end_) (hne : m.start ≠ m.end_) (hE : ¬ m.Open m.end_) :
    solveBFS m = .ok [] := by
  have hf : matAt (mkMatrix m.rows m.cols false) m.start.1 m.start.2 = .ok false := by
    rw [matAt_mkMatrix]; exact if_pos hS
  obtain ⟨V, hV⟩ := matSet_of_matAt true hf
  have inv0 := bfsInv_init hS hV
  obtain ⟨st, hloop, N', L, d, inv, -⟩ :=
    bfsLoop_inv hR (m.rows.toNat * m.cols.toNat + 1) (m.rows.toNat * m.cols.toNat)
      ⟨V, mkMatrix m.rows m.cols ((-1, -1) : Position), [m.start]⟩ (Nat.lt_succ_self _)
      ⟨_, inv0⟩
  unfold solveBFS solveBFSFuel
  simp only [Maze.getStart, Maze.getEnd, Maze.getRows, Maze.getCols, hV, hloop]
  rcases shape_bool inv.shapeV hEin with hv | hv
  · exfalso
    obtain ⟨u, -, -, -, hopen, -⟩ := inv.par _ hv (fun h => hne h.symm)
    exact hE hopen
  · rw [hv]

/-- C12 fails as stated: in the maze loaded from `#E` the start `(0,0)` is a
wall cell, yet both searches return the two-cell path `[(0,0),(0,1)]`. -/
theorem wall_start_path :
    Maze.new.load "#E\n".toList = .ok mazeNoStart ∧
    mazeNoStart.isOpen mazeNoStart.getStart.1 mazeNoStart.getStart.2 = .ok false ∧
    solveDFS mazeNoStart = .ok [(0, 0), (0, 1)] ∧
    solveBFS mazeNoStart = .ok [(0, 0), (0, 1)] := by
  decide

/-- C12, amended: on a rectangular maze whose start is in bounds and differs
from the end, if the end is a wall cell or lies outside the grid then `solveDFS`
returns the empty path, and if the end is a wall cell inside the grid then
`solveBFS` returns the empty path as well. -/
theorem solve_empty_of_end_closed (m : Maze) (hR : m.Rect) (hS : m.InBounds m.getStart)
    (hne : m.getStart ≠ m.getEnd) (hE : m.isOpen m.getEnd.1 m.getEnd.2 = .ok false) :
    solveDFS m = .ok [] ∧ (m.InBounds m.getEnd → solveBFS m = .ok []) := by
  have hE' : ¬ m.Open m.end_ := by
    intro h
    have h' : m.isOpen m.end_.1 m.end_.2 = .ok true := h
    have hE2 : m.isOpen m.end_.1 m.end_.2 = .ok false := hE
    rw [h'] at hE2
    cases hE2
  exact ⟨solveDFS_end_closed hR hS hne hE', fun hEin => solveBFS_end_closed hR hS hEin hne hE'⟩

theorem solve_empty_of_end_closed_witness :
    mazeEndWall.Rect ∧ mazeEndWall.InBounds mazeEndWall.getStart ∧
    mazeEndWall.getStart ≠ mazeEndWall.getEnd ∧
    mazeEndWall.isOpen mazeEndWall.getEnd.1 mazeEndWall.getEnd.2 = .ok false ∧
    solveDFS mazeEndWall = .ok [] ∧
    (mazeEndWall.InBounds mazeEndWall.getEnd → solveBFS mazeEndWall = .ok []) :=
  ⟨⟨by decide, by decide, by decide, by decide⟩, by decide, by decide, by decide,
    solve_empty_of_end_closed mazeEndWall ⟨by decide, by decide, by decide, by decide⟩
      (by decide) (by decide) (by decide)⟩

/-- C13, the code at the failing inputs: in the mazes loaded from the empty text
(zero rows) and from one empty line (zero columns), `solveDFS` returns
`[(0,0)]` and `solveBFS` indexes `visited` out of range. -/
theorem empty_maze_runs :
    Maze.new.load [] = .ok mazeEmpty ∧
    solveDFS mazeEmpty = .ok [(0, 0)] ∧ solveBFS mazeEmpty = .error .outOfRange ∧
    Maze.new.load "\n".toList = .ok mazeNoCols ∧
    solveDFS mazeNoCols = .ok [(0, 0)] ∧ solveBFS mazeNoCols = .error .outOfRange := by
  decide

/-- C16: on the maze `..` / `SE`, a rectangular maze with open start and end,
`solveDFS` returns a valid repetition-free path of four cells while `solveBFS`
returns one of two cells. -/
theorem solveDFS_not_shortest :
    ∃ m pd pb, m.Rect ∧ m.Open m.getStart ∧ m.Open m.getEnd ∧
      Maze.new.load "..\nSE\n".toList = .ok m ∧
      solveDFS m = .ok pd ∧ solveBFS m = .ok pb ∧
      m.Walk m.getStart m.getEnd pd ∧ pd.Nodup ∧ pb.length < pd.length := by
  refine ⟨mazeDetour, [(1, 0), (0, 0), (0, 1), (1, 1)], [(1, 0), (1, 1)], mazeDetour_rect,
    by decide, by decide, by decide, by decide, by decide, ?_, by decide, by decide⟩
  refine ⟨by decide, by decide, by decide, ?_⟩
  show List.Chain Adj4 _ _
  repeat (first | exact List.Chain.nil | apply List.Chain.cons (by decide))

/-- C17, the code at the failing input: on the grid `S..` / `.` / `..E`, whose
`cols` is 3, `isOpen(1, 2)` passes the bounds test and reads the one-character
row 1 at position 2, out of range; `isOpen(1, 1)` reads the terminator at
position `size()` and returns `true`. -/
theorem isOpen_ragged :
    mazeRagged.isOpen 1 2 = .error .outOfRange ∧ mazeRagged.isOpen 1 1 = .ok true := by
  decide

/-! ## `load`: missing markers -/

theorem mem_of_mem_stripCR {line : List Char} {ch : Char} (h : ch ∈ stripCR line) :
    ch ∈ line := by
  unfold stripCR at h
  split at h
  · exact List.mem_of_mem_dropLast h
  · exact h

theorem mem_of_mem_getlines :
    ∀ (text cur : List Char) (line : List Char), line ∈ getlines text cur →
      ∀ ch ∈ line, ch ∈ cur ∨ ch ∈ text
  | [], cur, line, hl, ch, hch => by
    unfold getlines at hl
    split at hl
    · cases hl
    · rw [List.mem_singleton] at hl
      subst hl
      exact Or.inl (mem_of_mem_stripCR hch)
  | c :: rest, cur, line, hl, ch, hch => by
    unfold getlines at hl
    split at hl
    · rcases List.mem_cons.mp hl with h | h
      · subst h
        exact Or.inl (mem_of_mem_stripCR hch)
      · rcases mem_of_mem_getlines rest [] line h ch hch with h' | h'
        · cases h'
        · exact Or.inr (List.mem_cons_of_mem _ h')
    · rcases mem_of_mem_getlines rest (cur ++ [c]) line hl ch hch with h' | h'
      · rcases List.mem_append.mp h' with h'' | h''
        · exact Or.inl h''
        · rw [List.mem_singleton] at h''
          subst h''
          exact Or.inr (List.mem_cons_self _ _)
      · exact Or.inr (List.mem_cons_of_mem _ h')

theorem gridAt_mem {g : List (List Char)} {i j : Int} {ch : Char}
    (h : gridAt g i j = .ok ch) : ch = Char.ofNat 0 ∨ ∃ row ∈ g, ch ∈ row := by
  by_cases h0 : ch = Char.ofNat 0
  · exact Or.inl h0
  · right
    obtain ⟨-, -, row, hrow, hx⟩ := matAt_eq_ok.mp (matAt_of_gridAt h h0)
    exact ⟨row, List.getElem?_mem hrow, List.getElem?_mem hx⟩

/-- The marker scan of one cell never faults inside a rectangular grid, and it
leaves a position untouched when its marker does not occur in the grid. -/
theorem scanCell_spec {g : List (List Char)} {cols : Int}
    (hcols : ∀ row ∈ g, (row.length : Int) = cols) {i j : Int}
    (hi0 : 0 ≤ i) (hi : i < g.length) (hj0 : 0 ≤ j) (hj : j < cols)
    (se : Position × Position) :
    ∃ se', scanCell g i j se = .ok se' ∧
      ((∀ row ∈ g, 'S' ∉ row) → se'.1 = se.1) ∧ ((∀ row ∈ g, 'E' ∉ row) → se'.2 = se.2) := by
  have hlt : i.toNat < g.length := by omega
  have hrow : g[i.toNat]? = some (g[i.toNat]) := List.getElem?_eq_getElem hlt
  have hlen := hcols _ (List.getElem_mem hlt)
  have hclt : j.toNat < (g[i.toNat]).length := by omega
  have hmat : matAt g i j = .ok ((g[i.toNat])[j.toNat]) :=
    matAt_eq_ok.mpr ⟨hi0, hj0, _, hrow, List.getElem?_eq_getElem hclt⟩
  have hmem : (g[i.toNat])[j.toNat] ∈ g[i.toNat] := List.getElem_mem hclt
  unfold scanCell
  rw [gridAt_of_matAt hmat]
  refine ⟨_, rfl, ?_, ?_⟩
  · intro hno
    have : (g[i.toNat])[j.toNat] ≠ 'S' := by
      intro h; rw [h] at hmem; exact hno _ (List.getElem_mem hlt) hmem
    simp only [if_neg this]
  · intro hno
    have : (g[i.toNat])[j.toNat] ≠ 'E' := by
      intro h; rw [h] at hmem; exact hno _ (List.getElem_mem hlt) hmem
    simp only [if_neg this]

theorem scanRow_spec {g : List (List Char)} {cols : Int}
    (hcols : ∀ row ∈ g, (row.length : Int) = cols) {i : Int}
    (hi0 : 0 ≤ i) (hi : i < g.length) :
    ∀ (n : Nat) (j : Int) (se : Position × Position), 0 ≤ j → j + n ≤ cols →
      ∃ se', scanRow g i n j se = .ok se' ∧
        ((∀ row ∈ g, 'S' ∉ row) → se'.1 = se.1) ∧ ((∀ row ∈ g, 'E' ∉ row) → se'.2 = se.2)
  | 0, j, se, _, _ => ⟨se, rfl, fun _ => rfl, fun _ => rfl⟩
  | n + 1, j, se, hj0, hj => by
    obtain ⟨se1, h1, hS1, hE1⟩ :=
      scanCell_spec hcols hi0 hi hj0 (by push_cast at hj; omega) se
    obtain ⟨se2, h2, hS2, hE2⟩ :=
      scanRow_spec hcols hi0 hi n (j + 1) se1 (by omega) (by push_cast at hj; omega)
    refine ⟨se2, ?_, fun h => (hS2 h).trans (hS1 h), fun h => (hE2 h).trans (hE1 h)⟩
    simp only [scanRow, h1, h2]

theorem scanRows_spec {g : List (List Char)} {cols : Int}
    (hcols : ∀ row ∈ g, (row.length : Int) = cols) (hc0 : 0 ≤ cols) :
    ∀ (n : Nat) (i : Int) (se : Position × Position), 0 ≤ i → i + n ≤ g.length →
      ∃ se', scanRows g cols n i se = .ok se' ∧
        ((∀ row ∈ g, 'S' ∉ row) → se'.1 = se.1) ∧ ((∀ row ∈ g, 'E' ∉ row) → se'.2 = se.2)
  | 0, i, se, _, _ => ⟨se, rfl, fun _ => rfl, fun _ => rfl⟩
  | n + 1, i, se, hi0, hi => by
    obtain ⟨se1, h1, hS1, hE1⟩ :=
      scanRow_spec hcols hi0 (by push_cast at hi; omega) cols.toNat 0 se (le_refl _)
        (by rw [Int.toNat_of_nonneg hc0]; omega)
    obtain ⟨se2, h2, hS2, hE2⟩ :=
      scanRows_spec hcols hc0 n (i + 1) se1 (by omega) (by push_cast at hi; omega)
    refine ⟨se2, ?_, fun h => (hS2 h).trans (hS1 h), fun h => (hE2 h).trans (hE1 h)⟩
    simp only [scanRows, h1, h2]

/-- C14 fails as stated: loading the text `S`, which has no `E`, succeeds and
leaves the end position at `(0,0)`; loading `#E`, which has no `S`, succeeds
and leaves the start position at `(0,0)`. -/
theorem load_defaults_origin :
    Maze.new.load "S".toList = .ok mazeOnlyS ∧ mazeOnlyS.getEnd = (0, 0) ∧
    Maze.new.load "#E\n".toList = .ok mazeNoStart ∧ mazeNoStart.getStart = (0, 0) := by
  decide

/-- C14, amended: on a text whose lines all have the same length, `load`
succeeds with the lines of the text as grid; when the text contains no `'E'`
the end position keeps the value it had before the call (`(0,0)` on a fresh
`Maze`), and when it contains no `'S'` the start position does. -/
theorem load_missing_marker (m : Maze) (text : List Char) (width : Nat)
    (hrect : ∀ row ∈ getlines text [], row.length = width) :
    ∃ m', m.load text = .ok m' ∧ m'.grid = getlines text [] ∧
      ('E' ∉ text → m'.getEnd = m.getEnd) ∧ ('S' ∉ text → m'.getStart = m.getStart) := by
  have hno : ∀ c : Char, c ∉ text → ∀ row ∈ getlines text [], c ∉ row := by
    intro c hc row hrow hmem
    rcases mem_of_mem_getlines text [] row hrow c hmem with h | h
    · cases h
    · exact hc h
  unfold Maze.load
  cases hg : getlines text [] with
  | nil =>
    simp only [List.length_nil, Int.toNat_zero, Nat.cast_zero, scanRows]
    exact ⟨_, rfl, rfl, fun _ => rfl, fun _ => rfl⟩
  | cons row0 rest =>
    rw [hg] at hrect hno
    have hcols : ∀ row ∈ row0 :: rest, (row.length : Int) = (row0.length : Int) := by
      intro row hrow
      rw [hrect row hrow, hrect row0 (List.mem_cons_self _ _)]
    obtain ⟨se', h1, hS, hE⟩ :=
      scanRows_spec hcols (Int.natCast_nonneg _) (row0 :: rest).length 0 (m.start, m.end_)
        (le_refl _) (by omega)
    simp only [Int.toNat_ofNat, h1]
    exact ⟨_, rfl, rfl, fun h => hE (hno 'E' h), fun h => hS (hno 'S' h)⟩

theorem load_missing_marker_witness :
    (∀ row ∈ getlines "S.\n#.\n".toList [], row.length = 2) ∧
    ∃ m', Maze.new.load "S.\n#.\n".toList = .ok m' ∧ m'.grid = getlines "S.\n#.\n".toList [] ∧
      ('E' ∉ "S.\n#.\n".toList → m'.getEnd = Maze.new.getEnd) ∧
      ('S' ∉ "S.\n#.\n".toList → m'.getStart = Maze.new.getStart) :=
  ⟨by decide, load_missing_marker Maze.new "S.\n#.\n".toList 2 (by decide)⟩

/-! ## `load` followed by `save` -/

theorem stripCR_of_ne {line : List Char} (h : line.getLast? ≠ some '\r') :
    stripCR line = line := by
  unfold stripCR
  rw [if_neg h]

theorem getlines_eq_map :
    ∀ (text cur : List Char), getlines text cur = (rawLines text cur).map stripCR
  | [], cur => by
    unfold getlines rawLines
    split <;> rfl
  | c :: rest, cur => by
    unfold getlines rawLines
    split
    · rw [List.map_cons, getlines_eq_map rest []]
    · exact getlines_eq_map rest (cur ++ [c])

theorem getlines_eq_rawLines {text : List Char}
    (h : ∀ line ∈ rawLines text [], line.getLast? ≠ some '\r') :
    getlines text [] = rawLines text [] := by
  rw [getlines_eq_map]
  conv_rhs => rw [← List.map_id (rawLines text [])]
  apply List.map_congr_left
  intro line hline
  exact stripCR_of_ne (h line hline)

/-- Writing the unstripped lines back gives the text read, with a newline added
when the last line had none. -/
theorem writeLines_rawLines :
    ∀ (text cur : List Char), writeLines (rawLines text cur) =
      cur ++ text ++
        (if text.getLast? = some '\n' ∨ (text = [] ∧ cur = []) then [] else ['\n'])
  | [], cur => by
    unfold rawLines
    by_cases hc : cur = []
    · subst hc; simp [writeLines]
    · simp [writeLines, hc]
  | c :: rest, cur => by
    unfold rawLines
    by_cases hc : c = '\n'
    · subst hc
      rw [if_pos rfl]
      simp only [writeLines, writeLines_rawLines rest [], List.nil_append, and_true,
        reduceCtorEq, false_and, or_false]
      cases rest with
      | nil => simp
      | cons y t => simp [List.getLast?_cons_cons]
    · rw [if_neg hc, writeLines_rawLines rest (cur ++ [c])]
      cases rest with
      | nil => simp [hc]
      | cons y t => simp [List.getLast?_cons_cons]

/-- C15 fails as stated: the text `a`, carriage return, newline is split into
the single row `a` and written back as `a`, newline, which differs from the
text by more than a final newline. -/
theorem carriage_return_lost :
    writeLines (getlines "a\r\n".toList []) = "a\n".toList ∧
    writeLines (getlines "a\r\n".toList []) ≠ "a\r\n".toList ∧
    writeLines (getlines "a\r\n".toList []) ≠ "a\r\n".toList ++ ['\n'] := by
  decide

/-- C15, amended: for every input text none of whose lines ends in a carriage
return, splitting it into rows as `load` does and writing the rows as
`save`/`print` do gives back the text itself, or the text followed by one
newline; and that is what `save` and `print` write for every maze that `load`
produced from the text. -/
theorem save_after_load (text : List Char)
    (hcr : ∀ line ∈ rawLines text [], line.getLast? ≠ some '\r') :
    (writeLines (getlines text []) = text ∨
      writeLines (getlines text []) = text ++ ['\n']) ∧
    ∀ m m' : Maze, m.load text = .ok m' →
      m'.save = writeLines (getlines text []) ∧ m'.print = writeLines (getlines text []) := by
  constructor
  · rw [getlines_eq_rawLines hcr, writeLines_rawLines, List.nil_append]
    split
    · left; rw [List.append_nil]
    · right; rfl
  · intro m m' h
    unfold Maze.load at h
    simp only at h
    split at h
    · cases h
    · cases h
      exact ⟨rfl, rfl⟩

theorem save_after_load_witness :
    (∀ line ∈ rawLines "S.\n.E".toList [], line.getLast? ≠ some '\r') ∧
    ((writeLines (getlines "S.\n.E".toList []) = "S.\n.E".toList ∨
      writeLines (getlines "S.\n.E".toList []) = "S.\n.E".toList ++ ['\n']) ∧
    ∀ m m' : Maze, m.load "S.\n.E".toList = .ok m' →
      m'.save = writeLines (getlines "S.\n.E".toList []) ∧
      m'.print = writeLines (getlines "S.\n.E".toList [])) :=
  ⟨by decide, save_after_load "S.\n.E".toList (by decide)⟩

/-! ## Breadth-first search without the early exit -/

/-- The neighbour loop of `solveBFS` never unmarks a cell and never rewrites
the parent entry of a cell that was already visited. -/
theorem bfsExpand_stable {m : Maze} {r c : Int} :
    ∀ (ds : List (Int × Int)) (st st' : BfsState), bfsExpand m r c ds st = .ok st' →
      ∀ v, Vis st.visited v →
        Vis st'.visited v ∧ matAt st'.parent v.1 v.2 = matAt st.parent v.1 v.2
  | [], st, st', h, v, hv => by
    simp only [bfsExpand] at h
    cases h
    exact ⟨hv, rfl⟩
  | dd :: ds, st, st', h, v, hv => by
    simp only [bfsExpand] at h
    cases ho : m.isOpen (r + dd.1) (c + dd.2) with
    | error e => rw [ho] at h; cases h
    | ok b =>
      rw [ho] at h
      cases b with
      | false => exact bfsExpand_stable ds st st' h v hv
      | true =>
        simp only at h
        cases hm : matAt st.visited (r + dd.1) (c + dd.2) with
        | error e => rw [hm] at h; cases h
        | ok b' =>
          rw [hm] at h
          cases b' with
          | true => exact bfsExpand_stable ds st st' h v hv
          | false =>
            simp only at h
            cases hV : matSet st.visited (r + dd.1) (c + dd.2) true with
            | error e => rw [hV] at h; cases h
            | ok V' =>
              rw [hV] at h
              simp only at h
              cases hP : matSet st.parent (r + dd.1) (c + dd.2) (r, c) with
              | error e => rw [hP] at h; cases h
              | ok P' =>
                rw [hP] at h
                simp only at h
                have hne : (v.1, v.2) ≠ (r + dd.1, c + dd.2) := by
                  intro hh
                  have h1 : v.1 = r + dd.1 := congrArg Prod.fst hh
                  have h2 : v.2 = c + dd.2 := congrArg Prod.snd hh
                  unfold Vis at hv
                  rw [h1, h2, hm] at hv
                  cases hv
                have hv' : Vis V' v := by
                  unfold Vis
                  rw [matAt_matSet_other hV hne]
                  exact hv
                obtain ⟨h3, h4⟩ := bfsExpand_stable ds _ st' h v hv'
                refine ⟨h3, ?_⟩
                rw [h4]
                exact matAt_matSet_other hP hne

theorem bfsLoopNoBreak_stable {m : Maze} :
    ∀ (fuel : Nat) (st st' : BfsState), bfsLoopNoBreak m fuel st = .ok st' →
      ∀ v, Vis st.visited v →
        Vis st'.visited v ∧ matAt st'.parent v.1 v.2 = matAt st.parent v.1 v.2
  | 0, st, st', h, _, _ => by
    simp only [bfsLoopNoBreak] at h
    cases h
  | fuel + 1, st, st', h, v, hv => by
    unfold bfsLoopNoBreak at h
    cases hq : st.q with
    | nil =>
      rw [hq] at h
      simp only at h
      cases h
      exact ⟨hv, rfl⟩
    | cons p q' =>
      rw [hq] at h
      simp only at h
      cases hx : bfsExpand m p.1 p.2 dirs ⟨st.visited, st.parent, q'⟩ with
      | error e => rw [hx] at h; cases h
      | ok st1 =>
        rw [hx] at h
        simp only at h
        obtain ⟨h1, h2⟩ := bfsExpand_stable dirs _ st1 hx v hv
        obtain ⟨h3, h4⟩ := bfsLoopNoBreak_stable fuel st1 st' h v h1
        exact ⟨h3, h4.trans h2⟩

/-- The search loop without early exit terminates within `N + 1` iterations
with an empty queue. -/
theorem bfsLoopNoBreak_inv {m : Maze} (hR : m.Rect) :
    ∀ (fuel N : Nat) (st : BfsState), N < fuel →
      (∃ d, BfsInv m N st.visited st.parent st.q d) →
      ∃ st', bfsLoopNoBreak m fuel st = .ok st' ∧
        ∃ N' d, BfsInv m N' st'.visited st'.parent [] d
  | 0, N, st, hN, _ => absurd hN (Nat.not_lt_zero N)
  | fuel + 1, N, st, hN, hinv => by
    obtain ⟨d, inv⟩ := hinv
    unfold bfsLoopNoBreak
    cases hq : st.q with
    | nil =>
      simp only
      rw [hq] at inv
      exact ⟨st, rfl, N, d, inv⟩
    | cons p q' =>
      simp only
      rw [hq] at inv
      obtain ⟨st', h1, ⟨d', inv'⟩, -, h4⟩ :=
        bfsExpand_inv hR p dirs ⟨st.visited, st.parent, q'⟩ (fun _ h => h) ⟨d, inv⟩
      rw [h1]
      simp only
      have hNpos : 0 < N := by
        have := inv.budget
        simp only [List.length_cons] at this
        omega
      obtain ⟨N0, rfl⟩ : ∃ N0, N = N0 + 1 := ⟨N - 1, by omega⟩
      have hnb : ∀ w, Adj4 p w → m.Open w → Vis st'.visited w := by
        intro w hadj hopen
        obtain ⟨dd, hdd, rfl⟩ := adj4_iff_dirs.mp hadj
        exact h4 dd hdd hopen
      exact bfsLoopNoBreak_inv hR fuel N0 st' (by omega) ⟨d', inv'.pop hnb⟩

/-- The final state of the search loop with early exit is a stage of the loop
without it: the latter only adds visited cells and parent entries, and it
visits the end only if the former did. -/
theorem bfsLoop_refines {m : Maze} (hR : m.Rect) :
    ∀ (fuel N : Nat) (st : BfsState), N < fuel →
      (∃ d, BfsInv m N st.visited st.parent st.q d) →
      ∃ st1 st2, bfsLoop m fuel st = .ok st1 ∧ bfsLoopNoBreak m fuel st = .ok st2 ∧
        (∃ N' L d, BfsInv m N' st1.visited st1.parent L d) ∧
        (∃ N' d, BfsInv m N' st2.visited st2.parent [] d) ∧
        (∀ v, Vis st1.visited v →
          Vis st2.visited v ∧ matAt st2.parent v.1 v.2 = matAt st1.parent v.1 v.2) ∧
        (Vis st2.visited m.end_ → Vis st1.visited m.end_)
  | 0, N, st, hN, _ => absurd hN (Nat.not_lt_zero N)
  | fuel + 1, N, st, hN, hinv => by
    obtain ⟨st2, hnb, hinv2⟩ := bfsLoopNoBreak_inv hR (fuel + 1) N st hN hinv
    obtain ⟨d, inv⟩ := hinv
    cases hq : st.q with
    | nil =>
      refine ⟨st, st, ?_, ?_, ⟨N, st.q, d, inv⟩, ?_, fun v hv => ⟨hv, rfl⟩, fun h => h⟩
      · simp only [bfsLoop, hq]
      · simp only [bfsLoopNoBreak, hq]
      · rw [hq] at inv; exact ⟨N, d, inv⟩
    | cons p q' =>
      by_cases hp : p = m.getEnd
      · refine ⟨⟨st.visited, st.parent, q'⟩, st2, ?_, hnb, ⟨N, st.q, d, inv⟩, hinv2,
          fun v hv => bfsLoopNoBreak_stable _ st st2 hnb v hv, ?_⟩
        · simp only [bfsLoop, hq, if_pos hp]
        · intro _
          have : m.end_ ∈ st.q := by
            rw [hq, hp]; exact List.mem_cons_self _ _
          exact inv.qvis _ this
      · have inv' := inv
        rw [hq] at inv'
        obtain ⟨st', h1, ⟨d', inv1⟩, -, h4⟩ :=
          bfsExpand_inv hR p dirs ⟨st.visited, st.parent, q'⟩ (fun _ h => h) ⟨d, inv'⟩
        have hNpos : 0 < N := by
          have := inv'.budget
          simp only [List.length_cons] at this
          omega
        obtain ⟨N0, rfl⟩ : ∃ N0, N = N0 + 1 := ⟨N - 1, by omega⟩
        have hnbr : ∀ w, Adj4 p w → m.Open w → Vis st'.visited w := by
          intro w hadj hopen
          obtain ⟨dd, hdd, rfl⟩ := adj4_iff_dirs.mp hadj
          exact h4 dd hdd hopen
        obtain ⟨s1, s2, e1, e2, r1, r2, r3, r4⟩ :=
          bfsLoop_refines hR fuel N0 st' (by omega) ⟨d', inv1.pop hnbr⟩
        refine ⟨s1, s2, ?_, ?_, r1, r2, r3, r4⟩
        · simp only [bfsLoop, hq, if_neg hp, h1, e1]
        · simp only [bfsLoopNoBreak, hq, h1, e2]

/-- The reconstruction loop only reads parent entries of visited cells. -/
theorem reconstruct_congr {m : Maze} {N : Nat} {V : List (List Bool)}
    {P P2 : List (List Position)} {L : List Position} {d : Position → Nat}
    (inv : BfsInv m N V P L d)
    (hagree : ∀ v, Vis V v → matAt P2 v.1 v.2 = matAt P v.1 v.2) :
    ∀ (fuel : Nat) (v : Position) (acc : List Position), Vis V v →
      reconstruct m.start P2 fuel v acc = reconstruct m.start P fuel v acc
  | 0, _, _, _ => rfl
  | fuel + 1, v, acc, hv => by
    unfold reconstruct
    by_cases hne : v = m.start
    · simp [hne]
    · obtain ⟨u, hP, hu, -⟩ := inv.par v hv hne
      simp only [ne_eq, hne, not_false_eq_true, if_true, hagree v hv, hP]
      exact reconstruct_congr inv hagree fuel u _ hu

/-- C18: on a rectangular maze whose start and end are in bounds, `solveBFS`
returns a path, and the variant whose search loop has no early exit returns the
same path. -/
theorem solveBFS_eq_noBreak (m : Maze) (hR : m.Rect) (hS : m.InBounds m.getStart)
    (hE : m.InBounds m.getEnd) :
    ∃ p, solveBFS m = .ok p ∧ solveBFSNoBreak m = .ok p := by
  have hS' : m.InBounds m.start := hS
  have hE' : m.InBounds m.end_ := hE
  have hf : matAt (mkMatrix m.rows m.cols false) m.start.1 m.start.2 = .ok false := by
    rw [matAt_mkMatrix]; exact if_pos hS'
  obtain ⟨V, hV⟩ := matSet_of_matAt true hf
  have inv0 := bfsInv_init hS' hV
  obtain ⟨st1, st2, e1, e2, ⟨N1, L1, d1, inv1⟩, ⟨N2, d2, inv2⟩, hst, hend⟩ :=
    bfsLoop_refines hR (m.rows.toNat * m.cols.toNat + 1) (m.rows.toNat * m.cols.toNat)
      ⟨V, mkMatrix m.rows m.cols ((-1, -1) : Position), [m.start]⟩ (Nat.lt_succ_self _)
      ⟨_, inv0⟩
  unfold solveBFS solveBFSFuel solveBFSNoBreak solveBFSNoBreakFuel
  simp only [Maze.getStart, Maze.getEnd, Maze.getRows, Maze.getCols, hV, e1, e2]
  rcases shape_bool inv1.shapeV hE' with hv | hv
  · have hv1 : matAt st1.visited m.end_.1 m.end_.2 = .ok true := hv
    have hv2 : matAt st2.visited m.end_.1 m.end_.2 = .ok true := (hst _ hv).1
    rw [hv1, hv2]
    simp only
    have hk : d1 m.end_ < m.rows.toNat * m.cols.toNat + 1 := by
      have := inv1.dsize _ hv
      omega
    obtain ⟨c, hc, -⟩ := inv1.reconstruct_spec (d1 m.end_) m.end_ hv rfl _ hk []
    rw [reconstruct_congr inv1 (fun v hv => (hst v hv).2) _ _ _ hv, hc]
    exact ⟨_, rfl, rfl⟩
  · have hv2 : matAt st2.visited m.end_.1 m.end_.2 = .ok false := by
      rcases shape_bool inv2.shapeV hE' with h | h
      · exact absurd hv (hend h).not_false
      · exact h
    rw [hv, hv2]
    exact ⟨_, rfl, rfl⟩

theorem solveBFS_eq_noBreak_witness :
    maze3.Rect ∧ maze3.InBounds maze3.getStart ∧ maze3.InBounds maze3.getEnd ∧
    ∃ p, solveBFS maze3 = .ok p ∧ solveBFSNoBreak maze3 = .ok p :=
  ⟨maze3_rect, by decide, by decide,
    solveBFS_eq_noBreak maze3 maze3_rect (by decide) (by decide)⟩

/-! ## Depth of the recursion of `dfsUtil` -/

theorem dfsLoop_mono {m : Maze}
    {call call' : Position → List (List Bool) → List Position → Except Fault DfsOut}
    (hcall : ∀ p v pt out, call p v pt = .ok out → call' p v pt = .ok out) (cur : Position) :
    ∀ (ds : List (Int × Int)) (V : List (List Bool)) (path : List Position) (out : DfsOut),
      dfsLoop m call cur ds V path = .ok out → dfsLoop m call' cur ds V path = .ok out
  | [], V, path, out, h => by
    simp only [dfsLoop] at h ⊢
    exact h
  | dd :: ds, V, path, out, h => by
    simp only [dfsLoop] at h ⊢
    cases ho : m.isOpen (cur.1 + dd.1) (cur.2 + dd.2) with
    | error e => rw [ho] at h; cases h
    | ok b =>
      rw [ho] at h
      cases b with
      | false => exact dfsLoop_mono hcall cur ds V path out h
      | true =>
        simp only at h ⊢
        cases hm : matAt V (cur.1 + dd.1) (cur.2 + dd.2) with
        | error e => rw [hm] at h; cases h
        | ok b' =>
          rw [hm] at h
          cases b' with
          | true => exact dfsLoop_mono hcall cur ds V path out h
          | false =>
            simp only at h ⊢
            cases hc : call (cur.1 + dd.1, cur.2 + dd.2) V path with
            | error e => rw [hc] at h; cases h
            | ok res =>
              rw [hc] at h
              rw [hcall _ _ _ _ hc]
              obtain ⟨b2, V2, path2⟩ := res
              cases b2 with
              | true => exact h
              | false => exact dfsLoop_mono hcall cur ds V2 path2 out h

/-- A call of `dfsUtil` that completes within nesting depth `n` completes with
the same outcome within any larger depth. -/
theorem dfsUtil_mono {m : Maze} (E : Position) :
    ∀ (n : Nat) (cur : Position) (V : List (List Bool)) (path : List Position) (out : DfsOut),
      dfsUtil m n cur E V path = .ok out → dfsUtil m (n + 1) cur E V path = .ok out
  | 0, _, _, _, _, h => by
    simp only [dfsUtil] at h
    cases h
  | n + 1, cur, V, path, out, h => by
    rw [dfsUtil] at h ⊢
    by_cases hce : cur = E
    · rw [if_pos hce] at h ⊢; exact h
    · rw [if_neg hce] at h ⊢
      cases hV : matSet V cur.1 cur.2 true with
      | error e => rw [hV] at h; cases h
      | ok V1 =>
        rw [hV] at h
        simp only at h ⊢
        exact dfsLoop_mono (fun p v pt o ho => dfsUtil_mono E n p v pt o ho) cur dirs V1 path
          out h

theorem dfsUtil_mono_le {m : Maze} (E : Position) {n n' : Nat} (hle : n ≤ n')
    {cur : Position} {V : List (List Bool)} {path : List Position} {out : DfsOut}
    (h : dfsUtil m n cur E V path = .ok out) : dfsUtil m n' cur E V path = .ok out := by
  induction hle with
  | refl => exact h
  | step _ ih => exact dfsUtil_mono E _ _ _ _ _ ih

/-- C19: on a rectangular maze whose start is in bounds and open, the recursion
of `dfsUtil` started by `solveDFS` terminates with nesting depth at most the
number of open cells: `solveDFS` limited to that depth, or to any larger one,
returns the same path as `solveDFS`; and the number of open cells is at most
`rows * cols`. -/
theorem solveDFS_depth (m : Maze) (hR : m.Rect) (hS : m.Open m.getStart) :
    ∃ p, solveDFS m = .ok p ∧
      (∀ fuel, (openCells m).card ≤ fuel → solveDFSFuel fuel m = .ok p) ∧
      (openCells m).card ≤ m.rows.toNat * m.cols.toNat := by
  have hcard : (openUnvisited m (mkMatrix m.rows m.cols false)).card ≤ (openCells m).card := by
    apply Finset.card_le_card
    intro p
    simp only [openUnvisited, openCells, Finset.mem_filter]
    rintro ⟨h1, h2, -⟩
    exact ⟨h1, h2⟩
  have hle : (openCells m).card ≤ m.rows.toNat * m.cols.toNat := by
    rw [← card_cells]
    exact Finset.card_le_card (Finset.filter_subset _ _)
  obtain ⟨out, hc, -⟩ :=
    dfsUtil_ok hR m.end_ (openCells m).card m.start (mkMatrix m.rows m.cols false) []
      (shape_mkMatrix m false) hS (not_vis_mkMatrix m _) (not_vis_mkMatrix m _) hcard
  simp only at hc
  have hall : ∀ fuel, (openCells m).card ≤ fuel →
      dfsUtil m fuel m.start m.end_ (mkMatrix m.rows m.cols false) [] = .ok out :=
    fun fuel hf => dfsUtil_mono_le m.end_ hf hc
  obtain ⟨b, V', path'⟩ := out
  refine ⟨if b then path'.reverse else path', ?_, ?_, hle⟩
  · unfold solveDFS solveDFSFuel
    simp only [Maze.getStart, Maze.getEnd, Maze.getRows, Maze.getCols]
    rw [hall _ (le_trans hle (Nat.le_succ _))]
    cases b <;> rfl
  · intro fuel hf
    unfold solveDFSFuel
    simp only [Maze.getStart, Maze.getEnd, Maze.getRows, Maze.getCols]
    rw [hall fuel hf]
    cases b <;> rfl

theorem solveDFS_depth_witness :
    mazeDetour.Rect ∧ mazeDetour.Open mazeDetour.getStart ∧
    ∃ p, solveDFS mazeDetour = .ok p ∧
      (∀ fuel, (openCells mazeDetour).card ≤ fuel → solveDFSFuel fuel mazeDetour = .ok p) ∧
      (openCells mazeDetour).card ≤ mazeDetour.rows.toNat * mazeDetour.cols.toNat :=
  ⟨mazeDetour_rect, by decide, solveDFS_depth mazeDetour mazeDetour_rect (by decide)⟩

/-! ## The parent map during the breadth-first search -/

/-- Every state at the head of the `while` loop of `solveBFS` satisfies the
loop invariant. -/
theorem BfsReach.inv {m : Maze} (hR : m.Rect) (hS : m.InBounds m.start) {st : BfsState}
    (h : BfsReach m st) : ∃ N d, BfsInv m N st.visited st.parent st.q d := by
  induction h with
  | init hV => exact ⟨_, _, bfsInv_init hS hV⟩
  | @step st st' p q' _ hq _ hx ih =>
    obtain ⟨N, d, inv⟩ := ih
    rw [hq] at inv
    obtain ⟨st1, h1, ⟨d', inv'⟩, -, h4⟩ :=
      bfsExpand_inv hR p dirs ⟨st.visited, st.parent, q'⟩ (fun _ h => h) ⟨d, inv⟩
    rw [hx] at h1
    cases h1
    have hNpos : 0 < N := by
      have := inv.budget
      simp only [List.length_cons] at this
      omega
    obtain ⟨N0, rfl⟩ : ∃ N0, N = N0 + 1 := ⟨N - 1, by omega⟩
    have hnb : ∀ w, Adj4 p w → m.Open w → Vis st'.visited w := by
      intro w hadj hopen
      obtain ⟨dd, hdd, rfl⟩ := adj4_iff_dirs.mp hadj
      exact h4 dd hdd hopen
    exact ⟨N0, d', inv'.pop hnb⟩

/-- The state in which the `while` loop of `solveBFS` is left has the `visited`
and `parent` matrices of a state at the head of the loop. -/
theorem bfsLoop_reach {m : Maze} :
    ∀ (fuel : Nat) (st st' : BfsState), BfsReach m st → bfsLoop m fuel st = .ok st' →
      ∃ st'', BfsReach m st'' ∧ st''.visited = st'.visited ∧ st''.parent = st'.parent
  | 0, _, _, _, h => by
    simp only [bfsLoop] at h
    cases h
  | fuel + 1, st, st', hr, h => by
    unfold bfsLoop at h
    cases hq : st.q with
    | nil =>
      rw [hq] at h
      simp only at h
      cases h
      exact ⟨st, hr, rfl, rfl⟩
    | cons p q' =>
      rw [hq] at h
      simp only at h
      by_cases hp : p = m.getEnd
      · rw [if_pos hp] at h
        cases h
        exact ⟨st, hr, rfl, rfl⟩
      · rw [if_neg hp] at h
        cases hx : bfsExpand m p.1 p.2 dirs ⟨st.visited, st.parent, q'⟩ with
        | error e => rw [hx] at h; cases h
        | ok st1 =>
          rw [hx] at h
          simp only at h
          exact bfsLoop_reach fuel st1 st' (BfsReach.step hr hq hp hx) h

/-- Parent entries and parent chains of the visited cells under the loop
invariant. -/
theorem BfsInv.parents {m : Maze} {N : Nat} {V : List (List Bool)}
    {P : List (List Position)} {L : List Position} {d : Position → Nat}
    (inv : BfsInv m N V P L d) :
    (∀ v, Vis V v → v ≠ m.start →
      ∃ u, matAt P v.1 v.2 = .ok u ∧ u ≠ (-1, -1) ∧ m.InBounds u ∧ Vis V u ∧ Adj4 u v) ∧
    (∀ v, Vis V v →
      ∃ path, reconstruct m.start P (m.rows.toNat * m.cols.toNat + 1) v [] = .ok path ∧
        path.length < m.rows.toNat * m.cols.toNat) := by
  constructor
  · intro v hv hne
    obtain ⟨u, hP, hu, hadj, -, -⟩ := inv.par v hv hne
    have hub : m.InBounds u := (inv.shapeV u).mp ⟨true, hu⟩
    refine ⟨u, hP, ?_, hub, hu, hadj⟩
    intro h
    rw [h] at hub
    have := hub.1
    omega
  · intro v hv
    have hk := inv.dsize v hv
    obtain ⟨c, hc, hlen, -⟩ :=
      inv.reconstruct_spec (d v) v hv rfl (m.rows.toNat * m.cols.toNat + 1) (by omega) []
    refine ⟨c, by simpa using hc, ?_⟩
    omega

/-- C20: on a rectangular maze whose start is in bounds, in every state at the
head of the `while` loop of `solveBFS` each visited cell other than the start
has a parent entry that differs from `(-1,-1)` and is an in-bounds visited cell
4-directionally adjacent to it, and the reconstruction loop started at any
visited cell reaches the start in fewer than `rows * cols` steps without an
out-of-range access; the same holds in the state in which the loop is left, so
that when the end is visited there the reconstruction loop of `solveBFS`
terminates without fault. -/
theorem bfs_parent_invariant (m : Maze) (hR : m.Rect) (hS : m.InBounds m.getStart)
    (st : BfsState) (hreach : BfsReach m st) :
    (∀ v, Vis st.visited v → v ≠ m.getStart →
      ∃ u, matAt st.parent v.1 v.2 = .ok u ∧ u ≠ (-1, -1) ∧ m.InBounds u ∧
        Vis st.visited u ∧ Adj4 u v) ∧
    (∀ v, Vis st.visited v →
      ∃ path, reconstruct m.getStart st.parent (m.rows.toNat * m.cols.toNat + 1) v [] = .ok path ∧
        path.length < m.rows.toNat * m.cols.toNat) ∧
    (∀ fuel st', bfsLoop m fuel st = .ok st' → Vis st'.visited m.getEnd →
      ∃ path, reconstruct m.getStart st'.parent (m.rows.toNat * m.cols.toNat + 1) m.getEnd []
        = .ok path) := by
  obtain ⟨N, d, inv⟩ := hreach.inv hR hS
  refine ⟨inv.parents.1, inv.parents.2, ?_⟩
  intro fuel st' hloop hv
  obtain ⟨st'', hr'', hV, hP⟩ := bfsLoop_reach fuel st st' hreach hloop
  obtain ⟨N', d', inv'⟩ := hr''.inv hR hS
  rw [hV, hP] at inv'
  obtain ⟨path, hp, -⟩ := inv'.parents.2 _ hv
  exact ⟨path, hp⟩

theorem maze3Stage1_reach : BfsReach maze3 maze3Stage1 :=
  @BfsReach.step maze3 maze3Stage0 maze3Stage1 (0, 0) []
    (@BfsReach.init maze3 [[true, false, false], [false, false, false], [false, false, false]]
      (by decide))
    rfl (by decide) (by decide)

theorem bfs_parent_invariant_witness :
    maze3.Rect ∧ maze3.InBounds maze3.getStart ∧ BfsReach maze3 maze3Stage1 ∧
    Vis maze3Stage1.visited (1, 0) ∧ ((1, 0) : Position) ≠ maze3.getStart ∧
    (∃ u, matAt maze3Stage1.parent 1 0 = .ok u ∧ u ≠ (-1, -1) ∧ maze3.InBounds u ∧
      Vis maze3Stage1.visited u ∧ Adj4 u (1, 0)) ∧
    (∃ path, reconstruct maze3.getStart maze3Stage1.parent
        (maze3.rows.toNat * maze3.cols.toNat + 1) (1, 0) [] = .ok path ∧
      path.length < maze3.rows.toNat * maze3.cols.toNat) ∧
    bfsLoop maze3 10 maze3Stage1 = .ok maze3Final ∧ Vis maze3Final.visited maze3.getEnd ∧
    (∃ path, reconstruct maze3.getStart maze3Final.parent
      (maze3.rows.toNat * maze3.cols.toNat + 1) maze3.getEnd [] = .ok path) :=
  have h := bfs_parent_invariant maze3 maze3_rect (by decide) maze3Stage1 maze3Stage1_reach
  ⟨maze3_rect, by decide, maze3Stage1_reach, by decide, by decide,
    h.1 (1, 0) (by decide) (by decide), h.2.1 (1, 0) (by decide), by decide, by decide,
    h.2.2 10 maze3Final (by decide) (by decide)⟩

end MazeSolver
